import Mathlib

/-!
Verification of the SNOMED CT in-memory graph engine (`snomed_graph.py`).

The graph is shallowly embedded: nodes are attribute records keyed by SCTID,
edges are one record per ordered `(source, target)` pair carrying
`(group, type, type_id)` attributes, mirroring a NetworkX `DiGraph`.
Concept identity in the Python code is by SCTID alone (`__eq__`/`__hash__`
of `SnomedConceptDetails`), so traversal result sets are modelled as
`Finset Nat` of SCTIDs.
-/

/-- Attributes stored on each directed edge: the relationship group number,
the resolved relationship-type name, and the relationship-type identifier
(`group=..., type=..., type_id=...` in `from_rf2`). -/
structure EdgeAttrs where
  group : Nat
  type : String
  type_id : Nat
deriving DecidableEq, Repr

/-- Per-concept node attributes stored by `G.add_node(sctid, fsn=..., synonyms=...)`. -/
structure NodeRec where
  sctid : Nat
  fsn : String
  synonyms : List String
deriving DecidableEq, Repr

/-- An edge record as stored by the graph: the ordered `(source, target)`
pair plus its attribute record. -/
abbrev EdgeRec := (Nat × Nat) × EdgeAttrs

/-- The in-memory graph: node records plus at most one edge record per
ordered pair (the `DiGraph` invariant, maintained by construction). -/
structure SnomedGraph where
  nodes : List NodeRec
  edges : List EdgeRec
deriving DecidableEq, Repr

/-- `SnomedGraph.fsn_typeId` class attribute. -/
def SnomedGraph.fsn_typeId : Nat := 900000000000003001

/-- `SnomedGraph.is_a_relationship_typeId` class attribute. -/
def SnomedGraph.is_a_relationship_typeId : Nat := 116680003

/-- `SnomedGraph.root_concept_id` class attribute. -/
def SnomedGraph.root_concept_id : Nat := 138875005

/-- The node identifiers present in the graph. -/
def nodeIds (g : SnomedGraph) : List Nat := g.nodes.map (·.sctid)

/-- Outgoing edge records of a concept (`G.out_edges(sctid)`), in edge-list order. -/
def outEdges (g : SnomedGraph) (sctid : Nat) : List EdgeRec :=
  g.edges.filter (fun e => e.1.1 = sctid)

/-- Incoming edge records of a concept (`G.in_edges(sctid)`). -/
def inEdges (g : SnomedGraph) (sctid : Nat) : List EdgeRec :=
  g.edges.filter (fun e => e.1.2 = sctid)

/-- `get_parents`: targets of the outgoing edges whose `type_id` is the
"is a" relationship type. -/
def get_parents (g : SnomedGraph) (sctid : Nat) : List Nat :=
  ((outEdges g sctid).filter
    (fun e => e.2.type_id = SnomedGraph.is_a_relationship_typeId)).map (fun e => e.1.2)

/-- `get_children`: sources of the incoming edges whose `type_id` is the
"is a" relationship type. -/
def get_children (g : SnomedGraph) (sctid : Nat) : List Nat :=
  ((inEdges g sctid).filter
    (fun e => e.2.type_id = SnomedGraph.is_a_relationship_typeId)).map (fun e => e.1.1)

/-- `set(self.get_parents(sctid))`: parent SCTIDs as a set (identity by id). -/
def parentsF (g : SnomedGraph) (sctid : Nat) : Finset Nat := (get_parents g sctid).toFinset

/-- `set(self.get_children(sctid))`: child SCTIDs as a set (identity by id). -/
def childrenF (g : SnomedGraph) (sctid : Nat) : Finset Nat := (get_children g sctid).toFinset

/-- Recursive core of `get_ancestors` after validation, on a `Nat` depth:
`ancestors = set(parents)`, unioned with the recursive ancestors of each
parent when `steps_removed > 1`, then filtered to drop the root concept.
The fuel-0 case is unreachable (the wrapper always passes a positive depth);
at fuel `k+1` the recursion at fuel `k` fires exactly when `k > 0`,
matching `if steps_removed > 1`. -/
def ancestorsAux (g : SnomedGraph) : Nat → Nat → Finset Nat
  | 0, _ => ∅
  | k + 1, sctid =>
    (if 0 < k then
        parentsF g sctid ∪ (parentsF g sctid).biUnion (fun p => ancestorsAux g k p)
      else parentsF g sctid).filter (fun a => a ≠ SnomedGraph.root_concept_id)

/-- Recursive core of `get_descendants` after validation: like the ancestor
traversal but over children, and with no root filter (the source applies
none there). -/
def descendantsAux (g : SnomedGraph) : Nat → Nat → Finset Nat
  | 0, _ => ∅
  | k + 1, sctid =>
    if 0 < k then
      childrenF g sctid ∪ (childrenF g sctid).biUnion (fun c => descendantsAux g k c)
    else childrenF g sctid

/-- Recursive core of `get_neighbourhood` after the assertion: the union of
parents and children, recursively expanded when `steps_removed > 1`, then
filtered to drop the query concept itself and the root concept
(`n.sctid not in [sctid, SnomedGraph.root_concept_id]`). -/
def neighbourhoodAux (g : SnomedGraph) : Nat → Nat → Finset Nat
  | 0, _ => ∅
  | k + 1, sctid =>
    (if 0 < k then
        (parentsF g sctid ∪ childrenF g sctid) ∪
          (parentsF g sctid ∪ childrenF g sctid).biUnion (fun n => neighbourhoodAux g k n)
      else parentsF g sctid ∪ childrenF g sctid).filter
      (fun n => n ≠ sctid ∧ n ≠ SnomedGraph.root_concept_id)

/-- `get_ancestors(sctid, steps_removed)`: `None` becomes the finite depth
99999; an explicit `steps_removed <= 0` raises (`AssertionError`), modelled
as `Except.error`. -/
def get_ancestors (g : SnomedGraph) (sctid : Nat) (steps_removed : Option Int) :
    Except String (Finset Nat) :=
  match steps_removed with
  | none => Except.ok (ancestorsAux g 99999 sctid)
  | some s =>
    if s ≤ 0 then Except.error "steps_removed must be > 0 or None"
    else Except.ok (ancestorsAux g s.toNat sctid)

/-- `get_descendants(sctid, steps_removed)`, with the same validation as
`get_ancestors`. -/
def get_descendants (g : SnomedGraph) (sctid : Nat) (steps_removed : Option Int) :
    Except String (Finset Nat) :=
  match steps_removed with
  | none => Except.ok (descendantsAux g 99999 sctid)
  | some s =>
    if s ≤ 0 then Except.error "steps_removed must be > 0 or None"
    else Except.ok (descendantsAux g s.toNat sctid)

/-- `get_neighbourhood(sctid, steps_removed)`: `assert steps_removed > 0`
raises `AssertionError` when the depth is not positive, modelled as
`Except.error`. -/
def get_neighbourhood (g : SnomedGraph) (sctid : Nat) (steps_removed : Int) :
    Except String (Finset Nat) :=
  if steps_removed ≤ 0 then Except.error "steps_removed must be > 0"
  else Except.ok (neighbourhoodAux g steps_removed.toNat sctid)

/-- Decidable equality for `Except`, used to evaluate query results on
concrete graphs. -/
instance (ε α : Type) [DecidableEq ε] [DecidableEq α] : DecidableEq (Except ε α) := fun x y =>
  match x, y with
  | .error a, .error b =>
    if h : a = b then .isTrue (by rw [h]) else .isFalse (by simp [h])
  | .ok a, .ok b =>
    if h : a = b then .isTrue (by rw [h]) else .isFalse (by simp [h])
  | .error _, .ok _ => .isFalse (by simp)
  | .ok _, .error _ => .isFalse (by simp)

/-- The root concept never appears in an ancestor traversal result: the
result of `ancestorsAux` is a filter dropping it. -/
theorem root_not_mem_ancestorsAux (g : SnomedGraph) (k sctid : Nat) :
    SnomedGraph.root_concept_id ∉ ancestorsAux g k sctid := by
  cases k with
  | zero => simp [ancestorsAux]
  | succ k => simp [ancestorsAux, Finset.mem_filter]

/-- The root concept never appears in a neighbourhood traversal result. -/
theorem root_not_mem_neighbourhoodAux (g : SnomedGraph) (k sctid : Nat) :
    SnomedGraph.root_concept_id ∉ neighbourhoodAux g k sctid := by
  cases k with
  | zero => simp [neighbourhoodAux]
  | succ k => simp [neighbourhoodAux, Finset.mem_filter]

/-- The query concept itself never appears in its neighbourhood result. -/
theorem self_not_mem_neighbourhoodAux (g : SnomedGraph) (k sctid : Nat) :
    sctid ∉ neighbourhoodAux g k sctid := by
  cases k with
  | zero => simp [neighbourhoodAux]
  | succ k => simp [neighbourhoodAux, Finset.mem_filter]

/-- C4: for every concept id and every admissible depth argument, the root
concept is never an element of a `get_ancestors` or `get_neighbourhood`
result, and `get_neighbourhood` also never contains the query concept. -/
theorem c4_root_and_self_excluded (g : SnomedGraph) (sctid : Nat)
    (steps : Option Int) (steps2 : Int) (r r2 : Finset Nat)
    (h : get_ancestors g sctid steps = Except.ok r)
    (h2 : get_neighbourhood g sctid steps2 = Except.ok r2) :
    SnomedGraph.root_concept_id ∉ r ∧ SnomedGraph.root_concept_id ∉ r2 ∧ sctid ∉ r2 := by
  have hr : ∃ k, r = ancestorsAux g k sctid := by
    cases steps with
    | none => exact ⟨99999, by simpa [get_ancestors] using h.symm⟩
    | some s =>
      by_cases hs : s ≤ 0
      · simp [get_ancestors, hs] at h
      · exact ⟨s.toNat, by simpa [get_ancestors, hs] using h.symm⟩
  have hr2 : ∃ k, r2 = neighbourhoodAux g k sctid := by
    by_cases hs : steps2 ≤ 0
    · simp [get_neighbourhood, hs] at h2
    · exact ⟨steps2.toNat, by simpa [get_neighbourhood, hs] using h2.symm⟩
  obtain ⟨k, rfl⟩ := hr
  obtain ⟨k2, rfl⟩ := hr2
  exact ⟨root_not_mem_ancestorsAux g k sctid,
    root_not_mem_neighbourhoodAux g k2 sctid,
    self_not_mem_neighbourhoodAux g k2 sctid⟩

/-- The edge attributes used for "is a" relationships in the concrete test graphs. -/
def isaAttrs : EdgeAttrs :=
  { group := 0, type := "Is a", type_id := SnomedGraph.is_a_relationship_typeId }

/-- A two-node concrete graph whose single is-a edge points at the root concept. -/
def rootG : SnomedGraph :=
  { nodes := [⟨1, "A (finding)", []⟩, ⟨SnomedGraph.root_concept_id, "SNOMED CT Concept", []⟩],
    edges := [((1, SnomedGraph.root_concept_id), isaAttrs)] }

/-- Witness for C4: on `rootG`, concept 1's only parent is the root, and both
queries succeed with the root (and the query id) excluded from the results. -/
theorem c4_witness :
    get_ancestors rootG 1 (some 1) = Except.ok (∅ : Finset Nat) ∧
    get_neighbourhood rootG 1 1 = Except.ok (∅ : Finset Nat) ∧
    (SnomedGraph.root_concept_id ∉ (∅ : Finset Nat) ∧
      SnomedGraph.root_concept_id ∉ (∅ : Finset Nat) ∧ 1 ∉ (∅ : Finset Nat)) :=
  ⟨by decide, by decide,
    c4_root_and_self_excluded rootG 1 (some 1) 1 ∅ ∅ (by decide) (by decide)⟩

/-- C8: an explicitly supplied depth argument `≤ 0` makes `get_ancestors`,
`get_descendants` and `get_neighbourhood` fail immediately with a validation
error, producing no result. -/
theorem c8_nonpositive_depth_rejected (g : SnomedGraph) (sctid : Nat) (s : Int)
    (hs : s ≤ 0) :
    get_ancestors g sctid (some s) = Except.error "steps_removed must be > 0 or None" ∧
    get_descendants g sctid (some s) = Except.error "steps_removed must be > 0 or None" ∧
    get_neighbourhood g sctid s = Except.error "steps_removed must be > 0" := by
  refine ⟨?_, ?_, ?_⟩ <;> simp [get_ancestors, get_descendants, get_neighbourhood, hs]

/-! ### C1: depth monotonicity and the meaning of an unset depth bound -/

/-- One-step depth monotonicity of the ancestor traversal. -/
theorem ancestorsAux_mono_succ (g : SnomedGraph) :
    ∀ k sctid, ancestorsAux g k sctid ⊆ ancestorsAux g (k + 1) sctid := by
  intro k
  induction k with
  | zero => intro sctid; simp [ancestorsAux]
  | succ k ih =>
    intro sctid
    show ancestorsAux g (k + 1) sctid ⊆ ancestorsAux g (k + 1 + 1) sctid
    simp only [ancestorsAux, Nat.zero_lt_succ, if_true]
    apply Finset.filter_subset_filter
    rcases Nat.eq_zero_or_pos k with h0 | hpos
    · subst h0
      simp only [Nat.lt_irrefl, if_false]
      exact Finset.subset_union_left
    · rw [if_pos hpos]
      exact Finset.union_subset_union (Finset.Subset.refl _)
        (Finset.biUnion_mono (fun p _ => ih p))

/-- Depth monotonicity of the ancestor traversal, for any pair of depths. -/
theorem ancestorsAux_mono_le (g : SnomedGraph) (sctid : Nat) {j m : Nat} (h : j ≤ m) :
    ancestorsAux g j sctid ⊆ ancestorsAux g m sctid := by
  induction m with
  | zero =>
    have : j = 0 := Nat.le_zero.mp h
    subst this; exact Finset.Subset.refl _
  | succ m ih =>
    rcases Nat.lt_or_ge j (m + 1) with hlt | hge
    · exact (ih (Nat.lt_succ_iff.mp hlt)).trans (ancestorsAux_mono_succ g m sctid)
    · have : j = m + 1 := Nat.le_antisymm h hge
      subst this; exact Finset.Subset.refl _

/-- C1 (amended): for every concept id and every `k > 0`,
`get_ancestors(id, k) ⊆ get_ancestors(id, k+1)`; an unset depth bound means
the finite depth 99999, and the union of `get_ancestors(id, k)` over
`0 < k ≤ 99999` equals `get_ancestors(id, None)`.  (The union over *all*
`k > 0` can be strictly larger: see the counterexample.) -/
theorem c1_ancestors_monotone_and_union (g : SnomedGraph) (sctid : Nat) (k : Nat)
    (_hk : 0 < k) :
    ancestorsAux g k sctid ⊆ ancestorsAux g (k + 1) sctid ∧
    get_ancestors g sctid none = Except.ok (ancestorsAux g 99999 sctid) ∧
    (∀ x, (∃ j, 0 < j ∧ j ≤ 99999 ∧ x ∈ ancestorsAux g j sctid) ↔
      x ∈ ancestorsAux g 99999 sctid) := by
  refine ⟨ancestorsAux_mono_succ g k sctid, rfl, fun x => ⟨?_, ?_⟩⟩
  · rintro ⟨j, _, hj2, hx⟩
    exact ancestorsAux_mono_le g sctid hj2 hx
  · intro hx
    exact ⟨99999, by norm_num, Nat.le_refl _, hx⟩

/-- Witness for C1 (amended), at depth 1 on the concrete graph `rootG`. -/
theorem c1_witness :
    0 < 1 ∧
    (ancestorsAux rootG 1 1 ⊆ ancestorsAux rootG (1 + 1) 1 ∧
     get_ancestors rootG 1 none = Except.ok (ancestorsAux rootG 99999 1) ∧
     (∀ x, (∃ j, 0 < j ∧ j ≤ 99999 ∧ x ∈ ancestorsAux rootG j 1) ↔
        x ∈ ancestorsAux rootG 99999 1)) :=
  ⟨Nat.one_pos, c1_ancestors_monotone_and_union rootG 1 1 Nat.one_pos⟩

/-- The node records of the 100001-node chain graph. -/
def chainNodes : List NodeRec := (List.range 100001).map (fun i => ⟨i, "C (finding)", []⟩)

/-- The edge records of the chain graph: an is-a edge `i → i + 1` for each
`i < 100000`. -/
def chainEdges : List EdgeRec := (List.range 100000).map (fun i => ((i, i + 1), isaAttrs))

/-- A 100001-node is-a chain `0 → 1 → ⋯ → 100000`, whose longest is-a path
exceeds the finite depth 99999 that `get_ancestors` substitutes for `None`. -/
def chainG : SnomedGraph := { nodes := chainNodes, edges := chainEdges }

/-- Projection equation for the chain graph's edge list. -/
theorem chainG_edges : chainG.edges = chainEdges := by dsimp only [chainG]

/-- Filtering `List.range n` for a single value. -/
theorem range_filter_eq (i : Nat) :
    ∀ n, (List.range n).filter (fun j => decide (j = i)) = if i < n then [i] else [] := by
  intro n
  induction n with
  | zero => simp
  | succ n ih =>
    rw [List.range_succ, List.filter_append, ih]
    by_cases h : i < n
    · have hne : ¬(n = i) := by omega
      have hlt : i < n + 1 := by omega
      simp [hne, hlt, h]
    · by_cases h2 : n = i
      · subst h2
        simp [h, Nat.lt_succ_self]
      · have hge : ¬ i < n + 1 := by omega
        simp [h, h2, hge]

/-- The outgoing edges in the chain graph: node `i` has the single outgoing
edge to `i + 1` (when `i < 100000`). -/
theorem outEdges_chainG (i : Nat) :
    outEdges chainG i = if i < 100000 then [((i, i + 1), isaAttrs)] else [] := by
  have hcomp : ((fun (e : EdgeRec) => decide (e.1.1 = i)) ∘ (fun j => ((j, j + 1), isaAttrs)))
      = (fun j => decide (j = i)) := rfl
  rw [outEdges, chainG_edges, chainEdges, List.filter_map, hcomp, range_filter_eq]
  by_cases h : i < 100000 <;> simp [h]

/-- The parents in the chain graph: node `i` has the single parent `i + 1`
(when `i < 100000`). -/
theorem parentsF_chainG (i : Nat) :
    parentsF chainG i = if i < 100000 then {i + 1} else ∅ := by
  rw [parentsF, get_parents, outEdges_chainG]
  by_cases h : i < 100000 <;>
    simp [h, isaAttrs]

/-- Closed form of the ancestor traversal on the chain graph:
the ancestors of `i` within `k` steps are `i+1, …, min (i+k) 100000`. -/
theorem ancestorsAux_chainG (k : Nat) :
    ∀ i, ancestorsAux chainG k i = Finset.Ico (i + 1) (min (i + k + 1) 100001) := by
  induction k with
  | zero =>
    intro i
    simp only [ancestorsAux]
    ext x
    simp only [Finset.not_mem_empty, Finset.mem_Ico, false_iff]
    omega
  | succ k ih =>
    intro i
    simp only [ancestorsAux, parentsF_chainG, ih]
    rcases Nat.eq_zero_or_pos k with h0 | hpos
    · subst h0
      simp only [Nat.lt_irrefl, if_false]
      by_cases h : i < 100000
      · simp only [h, if_true]
        ext x
        simp only [Finset.mem_filter, Finset.mem_singleton, Finset.mem_Ico,
          SnomedGraph.root_concept_id]
        omega
      · simp only [h, if_false]
        ext x
        simp only [Finset.filter_empty, Finset.not_mem_empty, Finset.mem_Ico, false_iff]
        omega
    · rw [if_pos hpos]
      by_cases h : i < 100000
      · simp only [h, if_true, Finset.singleton_biUnion]
        ext x
        simp only [Finset.mem_filter, Finset.mem_union, Finset.mem_singleton, Finset.mem_Ico,
          SnomedGraph.root_concept_id]
        omega
      · simp only [h, if_false]
        ext x
        simp only [Finset.biUnion_empty, Finset.union_empty, Finset.filter_empty,
          Finset.not_mem_empty, Finset.mem_Ico, false_iff]
        omega

/-- C1 counterexample: on the deep chain graph, concept 100000 belongs to
`get_ancestors(0, 100000)` — hence to the union over all `k > 0` — but not to
`get_ancestors(0, None)`, which traverses only to depth 99999.  So an unset
bound does not traverse the is-a closure without limit, refuting the claim
as stated. -/
theorem c1_counterexample :
    (0 < 100000 ∧ (100000 : Nat) ∈ ancestorsAux chainG 100000 0) ∧
    get_ancestors chainG 0 none = Except.ok (ancestorsAux chainG 99999 0) ∧
    (100000 : Nat) ∉ ancestorsAux chainG 99999 0 := by
  refine ⟨⟨by norm_num, ?_⟩, rfl, ?_⟩
  · rw [ancestorsAux_chainG]
    simp only [Finset.mem_Ico]
    omega
  · rw [ancestorsAux_chainG]
    simp only [Finset.mem_Ico]
    omega

/-! ### C10: termination of the traversals, including on cyclic is-a graphs -/

/-- One-step unfolding of `ancestorsAux` at a depth above 1. -/
theorem ancestorsAux_succ (g : SnomedGraph) (k sctid : Nat) (hk : 0 < k) :
    ancestorsAux g (k + 1) sctid =
      (parentsF g sctid ∪ (parentsF g sctid).biUnion (fun p => ancestorsAux g k p)).filter
        (fun a => a ≠ SnomedGraph.root_concept_id) := by
  simp only [ancestorsAux]
  rw [if_pos hk]

/-- One-step unfolding of `descendantsAux` at a depth above 1. -/
theorem descendantsAux_succ (g : SnomedGraph) (k sctid : Nat) (hk : 0 < k) :
    descendantsAux g (k + 1) sctid =
      childrenF g sctid ∪ (childrenF g sctid).biUnion (fun c => descendantsAux g k c) := by
  simp only [descendantsAux]
  rw [if_pos hk]

/-- One-step unfolding of `neighbourhoodAux` at a depth above 1. -/
theorem neighbourhoodAux_succ (g : SnomedGraph) (k sctid : Nat) (hk : 0 < k) :
    neighbourhoodAux g (k + 1) sctid =
      ((parentsF g sctid ∪ childrenF g sctid) ∪
        (parentsF g sctid ∪ childrenF g sctid).biUnion (fun n => neighbourhoodAux g k n)).filter
        (fun n => n ≠ sctid ∧ n ≠ SnomedGraph.root_concept_id) := by
  simp only [neighbourhoodAux]
  rw [if_pos hk]

/-- A two-node graph whose is-a relation is cyclic: `10 → 11 → 10`. -/
def cycleG : SnomedGraph :=
  { nodes := [⟨10, "A (finding)", []⟩, ⟨11, "B (finding)", []⟩],
    edges := [((10, 11), isaAttrs), ((11, 10), isaAttrs)] }

/-- On the cyclic graph, the ancestor traversal reaches the fixed point
`{10, 11}` at every depth of at least 2, despite the cycle. -/
theorem ancestorsAux_cycleG : ∀ k,
    ancestorsAux cycleG (k + 2) 10 = {10, 11} ∧ ancestorsAux cycleG (k + 2) 11 = {10, 11} := by
  intro k
  induction k with
  | zero => exact ⟨by decide, by decide⟩
  | succ k ih =>
    have h10 : parentsF cycleG 10 = {11} := by decide
    have h11 : parentsF cycleG 11 = {10} := by decide
    have hpos : 0 < k + 2 := by omega
    constructor
    · rw [show k + 1 + 2 = k + 2 + 1 by omega, ancestorsAux_succ cycleG (k + 2) 10 hpos,
        h10, Finset.singleton_biUnion, ih.2]
      decide
    · rw [show k + 1 + 2 = k + 2 + 1 by omega, ancestorsAux_succ cycleG (k + 2) 11 hpos,
        h11, Finset.singleton_biUnion, ih.1]
      decide

/-- On the cyclic graph, the descendant traversal reaches the fixed point
`{10, 11}` at every depth of at least 2. -/
theorem descendantsAux_cycleG : ∀ k,
    descendantsAux cycleG (k + 2) 10 = {10, 11} ∧
      descendantsAux cycleG (k + 2) 11 = {10, 11} := by
  intro k
  induction k with
  | zero => exact ⟨by decide, by decide⟩
  | succ k ih =>
    have h10 : childrenF cycleG 10 = {11} := by decide
    have h11 : childrenF cycleG 11 = {10} := by decide
    have hpos : 0 < k + 2 := by omega
    constructor
    · rw [show k + 1 + 2 = k + 2 + 1 by omega, descendantsAux_succ cycleG (k + 2) 10 hpos,
        h10, Finset.singleton_biUnion, ih.2]
      decide
    · rw [show k + 1 + 2 = k + 2 + 1 by omega, descendantsAux_succ cycleG (k + 2) 11 hpos,
        h11, Finset.singleton_biUnion, ih.1]
      decide

/-- On the cyclic graph, the neighbourhood traversal is `{11}` for concept 10
(and `{10}` for concept 11) at every positive depth. -/
theorem neighbourhoodAux_cycleG : ∀ k,
    neighbourhoodAux cycleG (k + 1) 10 = {11} ∧ neighbourhoodAux cycleG (k + 1) 11 = {10} := by
  intro k
  induction k with
  | zero => exact ⟨by decide, by decide⟩
  | succ k ih =>
    have h10 : parentsF cycleG 10 ∪ childrenF cycleG 10 = {11} := by decide
    have h11 : parentsF cycleG 11 ∪ childrenF cycleG 11 = {10} := by decide
    have hpos : 0 < k + 1 := by omega
    constructor
    · rw [neighbourhoodAux_succ cycleG (k + 1) 10 hpos, h10, Finset.singleton_biUnion, ih.2]
      decide
    · rw [neighbourhoodAux_succ cycleG (k + 1) 11 hpos, h11, Finset.singleton_biUnion, ih.1]
      decide

/-- C10: every call to `get_ancestors`, `get_descendants` or
`get_neighbourhood` with a valid depth argument terminates with a value, even
on a cyclic is-a graph: an unset depth is replaced by the finite bound 99999
and the recursion strictly decreases the remaining depth (the Lean
definitions are total by structural recursion on that depth).  On the
concrete two-node is-a cycle all three traversals return fixed points. -/
theorem c10_traversals_terminate :
    (∀ (g : SnomedGraph) (sctid : Nat),
      get_ancestors g sctid none = Except.ok (ancestorsAux g 99999 sctid) ∧
      get_descendants g sctid none = Except.ok (descendantsAux g 99999 sctid)) ∧
    get_ancestors cycleG 10 none = Except.ok ({10, 11} : Finset Nat) ∧
    get_descendants cycleG 10 none = Except.ok ({10, 11} : Finset Nat) ∧
    get_neighbourhood cycleG 10 99999 = Except.ok ({11} : Finset Nat) := by
  refine ⟨fun g sctid => ⟨rfl, rfl⟩, ?_, ?_, ?_⟩
  · show Except.ok (ancestorsAux cycleG 99999 10) = _
    rw [show (99999 : Nat) = 99997 + 2 by norm_num, (ancestorsAux_cycleG 99997).1]
  · show Except.ok (descendantsAux cycleG 99999 10) = _
    rw [show (99999 : Nat) = 99997 + 2 by norm_num, (descendantsAux_cycleG 99997).1]
  · have : ¬ ((99999 : Int) ≤ 0) := by norm_num
    simp only [get_neighbourhood, this, if_false]
    rw [show ((99999 : Int).toNat : Nat) = 99998 + 1 by decide,
      (neighbourhoodAux_cycleG 99998).1]

/-! ### C5: `get_inferred_relationships` grouping -/

/-- The outgoing non-is-a relationships of a concept, in encounter order
(`inferred_relationships` in the source). -/
def inferredRels (g : SnomedGraph) (sctid : Nat) : List EdgeRec :=
  (outEdges g sctid).filter (fun e => e.2.type_id ≠ SnomedGraph.is_a_relationship_typeId)

/-- Stable insertion of an edge into a list ordered by group number: the new
element goes before the first entry with an equal or larger group, so
earlier-encountered edges of the same group stay first. -/
def insertByGroup (e : EdgeRec) : List EdgeRec → List EdgeRec
  | [] => [e]
  | x :: xs => if e.2.group ≤ x.2.group then e :: x :: xs else x :: insertByGroup e xs

/-- Stable sort by group number: the observable behaviour of the stable
`sorted(inferred_relationships, key=lambda r: r.group)`. -/
def sortByGroup : List EdgeRec → List EdgeRec
  | [] => []
  | e :: xs => insertByGroup e (sortByGroup xs)

/-- `itertools.groupby` on the group key: collect adjacent runs of equal
group number, each run keeping its elements in order. -/
def groupRuns : List EdgeRec → List (Nat × List EdgeRec)
  | [] => []
  | e :: xs =>
    match groupRuns xs with
    | [] => [(e.2.group, [e])]
    | (k, es) :: gs =>
      if e.2.group = k then (k, e :: es) :: gs else (e.2.group, [e]) :: (k, es) :: gs

/-- `get_inferred_relationships(sctid)`: the non-is-a outgoing relationships,
stably sorted by group number and collected into relationship groups. -/
def get_inferred_relationships (g : SnomedGraph) (sctid : Nat) : List (Nat × List EdgeRec) :=
  groupRuns (sortByGroup (inferredRels g sctid))

/-- The ordering used by the sort: comparison of group numbers. -/
def keyLE (a b : EdgeRec) : Prop := a.2.group ≤ b.2.group

/-- Stable insertion is a permutation of consing. -/
theorem insertByGroup_perm (e : EdgeRec) : ∀ m, (insertByGroup e m).Perm (e :: m) := by
  intro m
  induction m with
  | nil => exact List.Perm.refl _
  | cons x xs ih =>
    by_cases h : e.2.group ≤ x.2.group
    · simp only [insertByGroup, if_pos h]
      exact List.Perm.refl _
    · simp only [insertByGroup, if_neg h]
      exact (ih.cons x).trans (List.Perm.swap e x xs)

/-- The stable sort permutes its input. -/
theorem sortByGroup_perm : ∀ l, (sortByGroup l).Perm l := by
  intro l
  induction l with
  | nil => exact List.Perm.refl _
  | cons e xs ih => exact (insertByGroup_perm e (sortByGroup xs)).trans (ih.cons e)

/-- Stable insertion preserves sortedness by group. -/
theorem insertByGroup_sorted (e : EdgeRec) :
    ∀ m, List.Sorted keyLE m → List.Sorted keyLE (insertByGroup e m) := by
  intro m
  induction m with
  | nil => intro _; simp [insertByGroup, List.Sorted]
  | cons x xs ih =>
    intro h
    rw [List.sorted_cons] at h
    by_cases hle : e.2.group ≤ x.2.group
    · simp only [insertByGroup, if_pos hle]
      rw [List.sorted_cons]
      refine ⟨?_, List.sorted_cons.mpr h⟩
      intro b hb
      rcases List.mem_cons.mp hb with rfl | hb
      · exact hle
      · exact le_trans hle (h.1 b hb)
    · simp only [insertByGroup, if_neg hle]
      rw [List.sorted_cons]
      refine ⟨?_, ih h.2⟩
      intro b hb
      have hb2 := (insertByGroup_perm e xs).mem_iff.mp hb
      rcases List.mem_cons.mp hb2 with rfl | hb3
      · exact le_of_not_le hle
      · exact h.1 b hb3

/-- The stable sort sorts by group. -/
theorem sortByGroup_sorted : ∀ l, List.Sorted keyLE (sortByGroup l) := by
  intro l
  induction l with
  | nil => simp [sortByGroup, List.Sorted]
  | cons e xs ih => exact insertByGroup_sorted e (sortByGroup xs) ih

/-- Stability, phrased through filters: inserting an element and then
keeping one group gives the same list as consing and filtering, because the
insertion point only skips strictly smaller groups. -/
theorem insertByGroup_filter (e : EdgeRec) (k : Nat) :
    ∀ m, (insertByGroup e m).filter (fun x => x.2.group = k) =
      ((e :: m).filter (fun x => x.2.group = k)) := by
  intro m
  induction m with
  | nil => simp [insertByGroup]
  | cons x xs ih =>
    by_cases hle : e.2.group ≤ x.2.group
    · simp only [insertByGroup, if_pos hle]
    · simp only [insertByGroup, if_neg hle]
      have hx : ¬ x.2.group = k ∨ ¬ e.2.group = k ∨ False := by
        by_cases h1 : x.2.group = k
        · right; left
          intro h2
          exact hle (by rw [h2, h1])
        · left; exact h1
      by_cases hxk : x.2.group = k <;> by_cases hek : e.2.group = k <;>
        simp_all [List.filter_cons]

/-- Stability of the full sort, phrased through filters: each group's
members keep their original encounter order. -/
theorem sortByGroup_filter (k : Nat) :
    ∀ l, (sortByGroup l).filter (fun x => x.2.group = k) =
      l.filter (fun x => x.2.group = k) := by
  intro l
  induction l with
  | nil => rfl
  | cons e xs ih =>
    show (insertByGroup e (sortByGroup xs)).filter _ = _
    rw [insertByGroup_filter e k (sortByGroup xs)]
    by_cases hek : e.2.group = k <;> simp_all [List.filter_cons]

/-- Specification of `groupRuns` on a list sorted by group number: the run
keys are strictly ascending, each run is nonempty and holds exactly the
elements of its group in list order, and the runs concatenate back to the
input. -/
theorem groupRuns_spec : ∀ (m : List EdgeRec), List.Sorted keyLE m →
    (((groupRuns m).map Prod.fst).Chain' (· < ·) ∧
     (∀ p ∈ groupRuns m, p.2 ≠ [] ∧ p.2 = m.filter (fun x => x.2.group = p.1)) ∧
     ((groupRuns m).map Prod.snd).flatten = m) := by
  intro m
  induction m with
  | nil => intro _; refine ⟨by simp [groupRuns], by simp [groupRuns], by simp [groupRuns]⟩
  | cons e xs ih =>
    intro hs
    rw [List.sorted_cons] at hs
    obtain ⟨hall, hs'⟩ := hs
    obtain ⟨hchain, hgrp, hjoin⟩ := ih hs'
    cases hxs : groupRuns xs with
    | nil =>
      have hxsnil : xs = [] := by
        rw [hxs] at hjoin
        simpa using hjoin.symm
      subst hxsnil
      refine ⟨by simp [groupRuns], ?_, by simp [groupRuns]⟩
      intro p hp
      simp only [groupRuns, List.mem_singleton] at hp
      subst hp
      refine ⟨by simp, by simp⟩
    | cons q gs =>
      obtain ⟨k, es⟩ := q
      rw [hxs] at hchain hgrp hjoin
      have hes : es = xs.filter (fun x => x.2.group = k) :=
        (hgrp (k, es) (List.mem_cons_self _ _)).2
      have hesne : es ≠ [] := (hgrp (k, es) (List.mem_cons_self _ _)).1
      have hpair : (k :: gs.map Prod.fst).Pairwise (· < ·) := by
        have := List.chain'_iff_pairwise.mp hchain
        simpa using this
      have hklt : ∀ k2 ∈ gs.map Prod.fst, k < k2 := (List.pairwise_cons.mp hpair).1
      -- every element of xs has group at least k
      have hgroups : ∀ y ∈ xs, y.2.group = k ∨ k < y.2.group := by
        intro y hy
        rw [← hjoin] at hy
        simp only [List.mem_flatten, List.mem_map] at hy
        obtain ⟨l, ⟨p, hp, rfl⟩, hyl⟩ := hy
        have h2 := (hgrp p hp).2
        rw [h2] at hyl
        have hygrp : y.2.group = p.1 := by
          have := List.of_mem_filter hyl
          simpa using this
        rcases List.mem_cons.mp hp with heq | hmem
        · left; rw [hygrp, heq]
        · right
          rw [hygrp]
          exact hklt p.1 (List.mem_map_of_mem Prod.fst hmem)
      have hunfold : groupRuns (e :: xs) =
          if e.2.group = k then (k, e :: es) :: gs
          else (e.2.group, [e]) :: (k, es) :: gs := by
        simp only [groupRuns, hxs]
      by_cases hk : e.2.group = k
      · rw [if_pos hk] at hunfold
        rw [hunfold]
        refine ⟨?_, ?_, ?_⟩
        · simpa using hchain
        · intro p hp
          rcases List.mem_cons.mp hp with rfl | hmem
          · refine ⟨by simp, ?_⟩
            simp only [List.filter_cons]
            rw [if_pos (by simpa using hk)]
            rw [← hes]
          · have h2 := hgrp p (List.mem_cons_of_mem _ hmem)
            refine ⟨h2.1, ?_⟩
            simp only [List.filter_cons]
            rw [if_neg, h2.2]
            have : k < p.1 := hklt p.1 (List.mem_map_of_mem Prod.fst hmem)
            simp only [decide_eq_true_eq]
            omega
        · simpa using hjoin
      · rw [if_neg hk] at hunfold
        rw [hunfold]
        have heltk : e.2.group < k := by
          obtain ⟨y, hy⟩ := List.exists_mem_of_ne_nil es hesne
          have hym : y ∈ xs := List.mem_of_mem_filter (hes ▸ hy)
          have hygrp : y.2.group = k := by
            have := List.of_mem_filter (hes ▸ hy)
            simpa using this
          have := hall y hym
          rw [keyLE, hygrp] at this
          omega
        refine ⟨?_, ?_, ?_⟩
        · simp only [List.map_cons]
          rw [List.chain'_cons]
          exact ⟨heltk, by simpa using hchain⟩
        · intro p hp
          rcases List.mem_cons.mp hp with rfl | hmem
          · refine ⟨by simp, ?_⟩
            simp only [List.filter_cons]
            rw [if_pos (by simp)]
            have : xs.filter (fun x => x.2.group = e.2.group) = [] := by
              rw [List.filter_eq_nil_iff]
              intro y hy
              rcases hgroups y hy with h1 | h1 <;>
                simp only [decide_eq_true_eq] <;> omega
            rw [this]
          · have h2 := hgrp p hmem
            refine ⟨h2.1, ?_⟩
            simp only [List.filter_cons]
            rw [if_neg, h2.2]
            have hpk : p.1 = k ∨ k < p.1 := by
              rcases List.mem_cons.mp hmem with heq | hmem2
              · left; rw [heq]
              · right; exact hklt p.1 (List.mem_map_of_mem Prod.fst hmem2)
            simp only [decide_eq_true_eq]
            omega
        · simpa using hjoin

/-- C5: `get_inferred_relationships(id)` contains exactly the outgoing
non-is-a edges of `id` (never an is-a edge), partitioned into nonempty groups
with strictly ascending group numbers, each group holding its relationships
in encounter order (i.e. each group equals the encounter-order filter of the
non-is-a outgoing relationships to that group number). -/
theorem c5_inferred_relationships (g : SnomedGraph) (sctid : Nat) :
    ((get_inferred_relationships g sctid).map Prod.fst).Chain' (· < ·) ∧
    (∀ p ∈ get_inferred_relationships g sctid, p.2 ≠ [] ∧
      p.2 = (inferredRels g sctid).filter (fun x => x.2.group = p.1)) ∧
    ((get_inferred_relationships g sctid).map Prod.snd).flatten.Perm (inferredRels g sctid) ∧
    (∀ e, e ∈ ((get_inferred_relationships g sctid).map Prod.snd).flatten ↔
      (e ∈ g.edges ∧ e.1.1 = sctid ∧
        e.2.type_id ≠ SnomedGraph.is_a_relationship_typeId)) := by
  obtain ⟨hchain, hgrp, hjoin⟩ :=
    groupRuns_spec (sortByGroup (inferredRels g sctid))
      (sortByGroup_sorted (inferredRels g sctid))
  have hperm : ((get_inferred_relationships g sctid).map Prod.snd).flatten.Perm
      (inferredRels g sctid) := by
    rw [get_inferred_relationships, hjoin]
    exact sortByGroup_perm _
  refine ⟨hchain, ?_, hperm, ?_⟩
  · intro p hp
    obtain ⟨h1, h2⟩ := hgrp p hp
    exact ⟨h1, by rw [h2, sortByGroup_filter]⟩
  · intro e
    rw [hperm.mem_iff]
    simp only [inferredRels, outEdges, List.mem_filter, decide_eq_true_eq]
    tauto

/-! ### C6: one edge per ordered pair, last-write-wins construction -/

/-- A relationship row of the release file, already filtered to `active == 1`
(`{sourceId, destinationId, relationshipGroup, typeId}`). -/
structure RelRecord where
  sourceId : Nat
  destinationId : Nat
  relationshipGroup : Nat
  typeId : Nat
deriving DecidableEq, Repr

/-- The edge attributes built from a relationship record and the resolved
relationship-type-name lookup (`group=..., type=..., type_id=...`). -/
def mkAttrs (typeNames : Nat → String) (r : RelRecord) : EdgeAttrs :=
  { group := r.relationshipGroup, type := typeNames r.typeId, type_id := r.typeId }

/-- `G.add_edge(source, destination, **attrs)`: overwrite the attributes of
the existing edge record for the ordered pair if there is one, otherwise
append a new edge record. -/
def addEdge (es : List EdgeRec) (s t : Nat) (a : EdgeAttrs) : List EdgeRec :=
  if es.any (fun e => e.1 = (s, t)) then
    es.map (fun e => if e.1 = (s, t) then ((s, t), a) else e)
  else es ++ [((s, t), a)]

/-- The edge-construction loop of `from_rf2`: `add_edge` for every active
relationship record, in file order, starting from an empty graph. -/
def buildEdges (typeNames : Nat → String) (records : List RelRecord) : List EdgeRec :=
  records.foldl (fun es r => addEdge es r.sourceId r.destinationId (mkAttrs typeNames r)) []

/-- The attributes stored for an ordered pair, if any. -/
def findAttr (es : List EdgeRec) (s t : Nat) : Option EdgeAttrs :=
  (es.find? (fun e => e.1 = (s, t))).map (fun e => e.2)

/-- Overwriting an existing pair's attributes makes its lookup return the
new attributes. -/
theorem findAttr_addEdge_same (es : List EdgeRec) (s t : Nat) (a : EdgeAttrs) :
    findAttr (addEdge es s t a) s t = some a := by
  rw [addEdge]
  by_cases h : es.any (fun e => e.1 = (s, t))
  · rw [if_pos h]
    rw [List.any_eq_true] at h
    obtain ⟨e0, he0, hkey⟩ := h
    induction es with
    | nil => simp at he0
    | cons x xs ih =>
      by_cases hx : x.1 = (s, t)
      · simp [findAttr, hx]
      · rcases List.mem_cons.mp he0 with rfl | hmem
        · simp_all
        · have := ih hmem
          simp only [List.map_cons, if_neg hx, findAttr] at this ⊢
          rw [List.find?_cons_of_neg _ (by simpa using hx)]
          exact this
  · rw [if_neg h]
    rw [List.any_eq_true] at h
    push_neg at h
    have hes : es.find? (fun e => decide (e.1 = (s, t))) = none := by
      rw [List.find?_eq_none]
      intro x hx
      simpa using fun hc => h x hx (by simpa using hc)
    simp [findAttr, List.find?_append, hes]

/-- Overwriting the record of one ordered pair leaves the `find?` of a
different ordered pair unchanged. -/
theorem find_overwrite_other (s t s2 t2 : Nat) (a : EdgeAttrs) (hne : ¬((s2, t2) = (s, t))) :
    ∀ es : List EdgeRec,
      (es.map (fun e => if e.1 = (s2, t2) then ((s2, t2), a) else e)).find?
          (fun e => e.1 = (s, t)) =
        es.find? (fun e => e.1 = (s, t)) := by
  intro es
  induction es with
  | nil => rfl
  | cons x xs ih =>
    by_cases hx : x.1 = (s2, t2)
    · have hxne : ¬ x.1 = (s, t) := by rw [hx]; exact hne
      simp only [List.map_cons, if_pos hx]
      rw [List.find?_cons_of_neg _ (by simpa using hne),
        List.find?_cons_of_neg _ (by simpa using hxne)]
      exact ih
    · simp only [List.map_cons, if_neg hx]
      by_cases hxk : x.1 = (s, t)
      · rw [List.find?_cons_of_pos _ (by simpa using hxk),
          List.find?_cons_of_pos _ (by simpa using hxk)]
      · rw [List.find?_cons_of_neg _ (by simpa using hxk),
          List.find?_cons_of_neg _ (by simpa using hxk)]
        exact ih

/-- Adding an edge for one ordered pair does not change the lookup of any
other ordered pair. -/
theorem findAttr_addEdge_other (es : List EdgeRec) (s t s2 t2 : Nat) (a : EdgeAttrs)
    (hne : ¬((s2, t2) = (s, t))) :
    findAttr (addEdge es s2 t2 a) s t = findAttr es s t := by
  rw [addEdge]
  by_cases h : es.any (fun e => e.1 = (s2, t2))
  · rw [if_pos h]
    rw [findAttr, find_overwrite_other s t s2 t2 a hne es]
    rfl
  · rw [if_neg h]
    simp only [findAttr, List.find?_append]
    have : List.find? (fun e => decide (e.1 = (s, t))) [((s2, t2), a)] = none := by
      rw [List.find?_cons_of_neg _ (by simpa using hne)]
      rfl
    rw [this, Option.or_none]

/-- `add_edge` keeps the ordered-pair keys duplicate-free. -/
theorem addEdge_keys_nodup (es : List EdgeRec) (s t : Nat) (a : EdgeAttrs)
    (h : (es.map Prod.fst).Nodup) : ((addEdge es s t a).map Prod.fst).Nodup := by
  rw [addEdge]
  by_cases hp : es.any (fun e => e.1 = (s, t))
  · rw [if_pos hp]
    have : (es.map (fun e => if e.1 = (s, t) then ((s, t), a) else e)).map Prod.fst
        = es.map Prod.fst := by
      rw [List.map_map]
      apply List.map_congr_left
      intro e _
      by_cases he : e.1 = (s, t) <;> simp [he]
    rw [this]
    exact h
  · rw [if_neg hp]
    rw [List.any_eq_true] at hp
    push_neg at hp
    rw [List.map_append]
    simp only [List.map_cons, List.map_nil]
    rw [List.nodup_append]
    refine ⟨h, List.nodup_singleton _, ?_⟩
    intro x hx
    simp only [List.mem_singleton]
    intro hc
    obtain ⟨e, he, rfl⟩ := List.mem_map.mp hx
    have hne : ¬ e.1 = (s, t) := by simpa using hp e he
    exact hne hc

/-- Generalised induction for the construction loop: the keys stay
duplicate-free, and a pair's attributes come from the last matching record,
falling back to the accumulator. -/
theorem buildEdges_loop (typeNames : Nat → String) (s t : Nat) :
    ∀ (records : List RelRecord) (acc : List EdgeRec),
      ((acc.map Prod.fst).Nodup →
        (((records.foldl
            (fun es r => addEdge es r.sourceId r.destinationId (mkAttrs typeNames r))
            acc)).map Prod.fst).Nodup) ∧
      findAttr (records.foldl
          (fun es r => addEdge es r.sourceId r.destinationId (mkAttrs typeNames r)) acc) s t =
        ((records.reverse.find?
            (fun r => r.sourceId = s ∧ r.destinationId = t)).map (mkAttrs typeNames)).or
          (findAttr acc s t) := by
  intro records
  induction records with
  | nil => intro acc; exact ⟨fun h => h, by simp⟩
  | cons r rest ih =>
    intro acc
    simp only [List.foldl_cons, List.reverse_cons, List.find?_append]
    constructor
    · intro h
      exact (ih _).1 (addEdge_keys_nodup acc _ _ _ h)
    · rw [(ih _).2]
      by_cases hrest : rest.reverse.find? (fun r => r.sourceId = s ∧ r.destinationId = t)
          = none
      · rw [hrest]
        simp only [Option.map_none, Option.none_or]
        by_cases hr : r.sourceId = s ∧ r.destinationId = t
        · have : List.find? (fun r => decide (r.sourceId = s ∧ r.destinationId = t)) [r]
              = some r := List.find?_cons_of_pos _ (by simpa using hr)
          rw [this]
          simp only [Option.map_some', Option.or_some]
          obtain ⟨rfl, rfl⟩ : r.sourceId = s ∧ r.destinationId = t := hr
          exact findAttr_addEdge_same acc r.sourceId r.destinationId (mkAttrs typeNames r)
        · have : List.find? (fun r => decide (r.sourceId = s ∧ r.destinationId = t)) [r]
              = none := by
            rw [List.find?_cons_of_neg _ (by simpa using hr)]
            rfl
          rw [this]
          simp only [Option.map_none', Option.none_or]
          exact findAttr_addEdge_other acc s t r.sourceId r.destinationId _
            (by simp only [Prod.mk.injEq]; tauto)
      · obtain ⟨r0, hr0⟩ := Option.ne_none_iff_exists'.mp hrest
        rw [hr0]
        simp [Option.or]

/-- C6: after construction from relationship records, the graph stores at
most one edge record per ordered `(source, target)` pair (hence at most one
per pair per type), and the stored attributes `(group, type, type_id)` are
those of the **last** record for that pair in input order (last-write-wins). -/
theorem c6_last_write_wins (typeNames : Nat → String) (records : List RelRecord)
    (s t : Nat) :
    ((buildEdges typeNames records).map Prod.fst).Nodup ∧
    findAttr (buildEdges typeNames records) s t =
      (records.reverse.find?
        (fun r => r.sourceId = s ∧ r.destinationId = t)).map (mkAttrs typeNames) := by
  obtain ⟨h1, h2⟩ := buildEdges_loop typeNames s t records []
  refine ⟨h1 (by simp), ?_⟩
  rw [buildEdges, h2]
  simp [findAttr]

/-! ### C7: FSN fallback for concepts with no fully-specified-name row -/

/-- A description row of the release file, already filtered to `active == 1`
(`{conceptId, typeId, term}`), as grouped per concept by the builder. -/
structure DescRow where
  conceptId : Nat
  typeId : Nat
  term : String
deriving DecidableEq, Repr

/-- The per-concept node-building step of `from_rf2`: the synonyms are the
terms of the non-FSN rows in row order; the FSN is the first FSN-typed row's
term; on `IndexError` (no FSN row) the first synonym is promoted to FSN and
removed from the synonym list and a warning is printed (modelled as the
`Bool` flag).  `none` models an unhandled exception, possible only for an
empty row group, which `groupby` never produces. -/
def buildNode (rows : List DescRow) : Option ((String × List String) × Bool) :=
  let synonyms :=
    (rows.filter (fun r => r.typeId ≠ SnomedGraph.fsn_typeId)).map (fun r => r.term)
  match (rows.filter (fun r => r.typeId = SnomedGraph.fsn_typeId)).map (fun r => r.term) with
  | t :: _ => some ((t, synonyms), false)
  | [] =>
    match synonyms with
    | s :: rest => some ((s, rest), true)
    | [] => none

/-- C7: for a concept whose (nonempty) active description rows contain no
FSN-typed row, construction promotes the first synonym to FSN, removes it
from the synonym list, reports a non-fatal warning, and continues (returns a
node instead of raising). -/
theorem c7_fsn_fallback (rows : List DescRow) (hne : rows ≠ [])
    (hnofsn : ∀ r ∈ rows, r.typeId ≠ SnomedGraph.fsn_typeId) :
    ∃ fsn rest, buildNode rows = some ((fsn, rest), true) ∧
      rows.map (fun r => r.term) = fsn :: rest := by
  have h1 : rows.filter (fun r => r.typeId = SnomedGraph.fsn_typeId) = [] := by
    rw [List.filter_eq_nil_iff]
    intro r hr
    simpa using hnofsn r hr
  have h2 : rows.filter (fun r => r.typeId ≠ SnomedGraph.fsn_typeId) = rows := by
    rw [List.filter_eq_self]
    intro r hr
    simpa using hnofsn r hr
  cases rows with
  | nil => exact absurd rfl hne
  | cons r rs =>
    refine ⟨r.term, rs.map (fun r => r.term), ?_, by rw [List.map_cons]⟩
    simp only [buildNode, h1, h2, List.map_nil, List.map_cons]

/-- Witness for C7: two synonym-only rows; the first term becomes the FSN,
the second stays the only synonym, and the warning flag is set. -/
theorem c7_witness :
    ([⟨5, 0, "Syn A"⟩, ⟨5, 0, "Syn B"⟩] : List DescRow) ≠ [] ∧
    (∀ r ∈ ([⟨5, 0, "Syn A"⟩, ⟨5, 0, "Syn B"⟩] : List DescRow),
      r.typeId ≠ SnomedGraph.fsn_typeId) ∧
    (∃ fsn rest,
      buildNode [⟨5, 0, "Syn A"⟩, ⟨5, 0, "Syn B"⟩] = some ((fsn, rest), true) ∧
      ([⟨5, 0, "Syn A"⟩, ⟨5, 0, "Syn B"⟩] : List DescRow).map (fun r => r.term)
        = fsn :: rest) :=
  ⟨by decide, by decide, c7_fsn_fallback _ (by decide) (by decide)⟩

/-! ### C9: save/load round trip (persistence adapter) -/

/-- The decimal digit character for a digit value. -/
def digitChar (d : Nat) : Char := Char.ofNat (48 + d)

/-- The digit value of a decimal character. -/
def charVal (c : Char) : Nat := c.toNat - 48

/-- Decimal stringization of a natural number, as the GML writer emits for
node identifiers. -/
def natToLabel (n : Nat) : String :=
  if n = 0 then "0" else ⟨((Nat.digits 10 n).map digitChar).reverse⟩

/-- The `int` destringizer: parse a decimal string back to a natural number,
failing on empty or non-digit input. -/
def labelToNat (s : String) : Option Nat :=
  if s.data ≠ [] ∧ s.data.all (fun c => 48 ≤ c.toNat ∧ c.toNat ≤ 57)
  then some (Nat.ofDigits 10 (s.data.reverse.map charVal))
  else none

/-- Parsing a digit character gives back its value. -/
theorem charVal_digitChar (d : Nat) (hd : d < 10) : charVal (digitChar d) = d := by
  interval_cases d <;> decide

/-- Digit characters lie in the decimal character range. -/
theorem digitChar_range (d : Nat) (hd : d < 10) :
    48 ≤ (digitChar d).toNat ∧ (digitChar d).toNat ≤ 57 := by
  interval_cases d <;> decide

/-- Stringization followed by the `int` destringizer is the identity. -/
theorem labelToNat_natToLabel (n : Nat) : labelToNat (natToLabel n) = some n := by
  by_cases h : n = 0
  · subst h
    decide
  · rw [natToLabel, if_neg h, labelToNat]
    have hdig : ∀ d ∈ Nat.digits 10 n, d < 10 :=
      fun d hd => Nat.digits_lt_base (by norm_num) hd
    have hdata : (String.mk (((Nat.digits 10 n).map digitChar).reverse)).data
        = ((Nat.digits 10 n).map digitChar).reverse := rfl
    have hcond : (String.mk (((Nat.digits 10 n).map digitChar).reverse)).data ≠ [] ∧
        ((String.mk (((Nat.digits 10 n).map digitChar).reverse)).data.all
          (fun c => 48 ≤ c.toNat ∧ c.toNat ≤ 57)) = true := by
      rw [hdata]
      constructor
      · simp only [ne_eq, List.reverse_eq_nil_iff, List.map_eq_nil_iff]
        exact Nat.digits_ne_nil_iff_ne_zero.mpr h
      · rw [List.all_eq_true]
        intro c hc
        rw [List.mem_reverse, List.mem_map] at hc
        obtain ⟨d, hd, rfl⟩ := hc
        simpa using digitChar_range d (hdig d hd)
    rw [if_pos hcond, hdata, List.reverse_reverse, List.map_map]
    have hmap : (Nat.digits 10 n).map (charVal ∘ digitChar) = (Nat.digits 10 n).map id := by
      apply List.map_congr_left
      intro d hd
      simpa using charVal_digitChar d (hdig d hd)
    rw [hmap, List.map_id, Nat.ofDigits_digits]

/-- Modelled from the spec: a node record of the persisted-graph blob.  The
on-disk serialization (`nx.write_gml` / `nx.read_gml(..., destringizer=int)`)
is an external collaborator "treated as an opaque persisted-graph blob"
storing "nodes with attributes {fsn, synonyms}"; node identifiers are stored
stringized, as GML stores labels. -/
structure GmlNode where
  label : String
  fsn : String
  synonyms : List String
deriving DecidableEq, Repr

/-- Modelled from the spec: an edge record of the persisted-graph blob,
storing "edges with attributes {group, type, type_id}" between stringized
endpoint identifiers. -/
structure GmlEdge where
  sourceLabel : String
  targetLabel : String
  group : Nat
  type : String
  type_id : Nat
deriving DecidableEq, Repr

/-- Modelled from the spec: the opaque persisted-graph blob. -/
structure GmlBlob where
  gnodes : List GmlNode
  gedges : List GmlEdge
deriving DecidableEq, Repr

/-- Modelled from the spec: `save(graph) -> blob` (`nx.write_gml`), which
stores every node's identifier (stringized), fsn and synonyms, and every
edge's endpoints (stringized) and `(group, type, type_id)` attributes. -/
def save (g : SnomedGraph) : GmlBlob :=
  { gnodes := g.nodes.map (fun n => ⟨natToLabel n.sctid, n.fsn, n.synonyms⟩),
    gedges := g.edges.map
      (fun e => ⟨natToLabel e.1.1, natToLabel e.1.2, e.2.group, e.2.type, e.2.type_id⟩) }

/-- Destringize and rebuild the node records, failing if any label fails to
parse as an integer. -/
def parseNodes : List GmlNode → Option (List NodeRec)
  | [] => some []
  | n :: rest =>
    match labelToNat n.label, parseNodes rest with
    | some i, some rs => some (⟨i, n.fsn, n.synonyms⟩ :: rs)
    | _, _ => none

/-- Destringize and rebuild the edge records. -/
def parseEdges : List GmlEdge → Option (List EdgeRec)
  | [] => some []
  | e :: rest =>
    match labelToNat e.sourceLabel, labelToNat e.targetLabel, parseEdges rest with
    | some s, some t, some rs => some (((s, t), ⟨e.group, e.type, e.type_id⟩) :: rs)
    | _, _, _ => none

/-- Modelled from the spec: `load(blob) -> graph`
(`nx.read_gml(..., destringizer=int)`), applying the `int` destringizer to
every identifier so they "deserialize as integers, not strings". -/
def from_serialized (b : GmlBlob) : Option SnomedGraph :=
  match parseNodes b.gnodes, parseEdges b.gedges with
  | some ns, some es => some ⟨ns, es⟩
  | _, _ => none

/-- C9: loading the serialization produced by `save` restores the graph
exactly — the identical node list with identical per-node `fsn` and
`synonyms`, the identical edge list with identical `(group, type, type_id)`
attributes, and all identifiers restored as integers. -/
theorem c9_round_trip (g : SnomedGraph) : from_serialized (save g) = some g := by
  have hn : ∀ ns : List NodeRec,
      parseNodes (ns.map (fun n => ⟨natToLabel n.sctid, n.fsn, n.synonyms⟩)) = some ns := by
    intro ns
    induction ns with
    | nil => rfl
    | cons n rest ih =>
      simp only [List.map_cons, parseNodes, labelToNat_natToLabel, ih]
  have he : ∀ es : List EdgeRec,
      parseEdges (es.map
        (fun e => ⟨natToLabel e.1.1, natToLabel e.1.2, e.2.group, e.2.type, e.2.type_id⟩))
        = some es := by
    intro es
    induction es with
    | nil => rfl
    | cons e rest ih =>
      simp only [List.map_cons, parseEdges, labelToNat_natToLabel, ih]
  rw [from_serialized]
  simp only [save, hn, he]

/-! ### C3: `find_path` and shortest paths -/

/-- The successor nodes of `a` (targets of its outgoing edges), in edge-list
order — the adjacency order a breadth-first `nx.shortest_path` explores. -/
def succs (g : SnomedGraph) (a : Nat) : List Nat := (outEdges g a).map (fun e => e.1.2)

/-- All walks from `a` to `b` with exactly `n` edges, as node lists, ordered
by the adjacency order at each step. -/
def walks (g : SnomedGraph) (b : Nat) : Nat → Nat → List (List Nat)
  | 0, a => if a = b then [[a]] else []
  | n + 1, a => (succs g a).flatMap (fun c => (walks g b n c).map (fun p => a :: p))

/-- The search bound: a shortest path repeats no node, so it has at most
`|nodes|` nodes. -/
def bound (g : SnomedGraph) : Nat := g.nodes.length

/-- `nx.shortest_path(G, a, b)` (and, by `isSome`, `nx.has_path`): the first
walk of the smallest length, trying lengths in increasing order; `none` when
no walk of length at most `bound g` exists. -/
def shortestPathNodes (g : SnomedGraph) (a b : Nat) : Option (List Nat) :=
  (List.range (bound g + 1)).findSome? (fun n => (walks g b n a).head?)

/-- `self.G.edges[(u, v)]`: the attributes stored on the edge `u → v`
(defaulting for absent edges, which the path constructions never hit). -/
def edgeAttr (g : SnomedGraph) (u v : Nat) : EdgeAttrs :=
  ((g.edges.find? (fun e => e.1 = (u, v))).map (fun e => e.2)).getD ⟨0, "", 0⟩

/-- `for src, tgt in pairwise(nodes): ...` — the relationship sequence along
a node path. -/
def toRels (g : SnomedGraph) (nodes : List Nat) : List EdgeRec :=
  (nodes.zip nodes.tail).map (fun q => ((q.1, q.2), edgeAttr g q.1 q.2))

/-- `find_path(sctid1, sctid2)`: try a directed path `sctid1 → sctid2`
first, fall back to `sctid2 → sctid1`, else the empty sequence. -/
def find_path (g : SnomedGraph) (a b : Nat) : List EdgeRec :=
  match shortestPathNodes g a b with
  | some p => toRels g p
  | none =>
    match shortestPathNodes g b a with
    | some p => toRels g p
    | none => []

/-- There is an edge from `u` to `v`. -/
def edgeMem (g : SnomedGraph) (u v : Nat) : Prop := ∃ e ∈ g.edges, e.1 = (u, v)

/-- `p` is a directed walk that starts at `a`, ends at `b`, and follows
edges of `g`. -/
def WalkFrom (g : SnomedGraph) (b a : Nat) (p : List Nat) : Prop :=
  p.head? = some a ∧ p.getLast? = some b ∧ List.Chain' (fun u v => edgeMem g u v) p

/-- `b` is reachable from `a` along directed edges (what `nx.has_path`
decides). -/
def Reaches (g : SnomedGraph) (a b : Nat) : Prop := ∃ p, WalkFrom g b a p

/-- Every edge's endpoints are nodes of the graph — the `DiGraph` invariant
(`add_edge` inserts its endpoints as nodes). -/
def EdgesWf (g : SnomedGraph) : Prop :=
  ∀ e ∈ g.edges, e.1.1 ∈ nodeIds g ∧ e.1.2 ∈ nodeIds g

/-- The well-formedness check is decidable, so it can be discharged by
evaluation on concrete graphs. -/
instance (g : SnomedGraph) : Decidable (EdgesWf g) :=
  decidable_of_iff (∀ e ∈ g.edges, e.1.1 ∈ nodeIds g ∧ e.1.2 ∈ nodeIds g) Iff.rfl

/-- Successor membership is edge membership. -/
theorem mem_succs (g : SnomedGraph) (a c : Nat) : c ∈ succs g a ↔ edgeMem g a c := by
  simp only [succs, outEdges, edgeMem, List.mem_map, List.mem_filter, decide_eq_true_eq]
  constructor
  · rintro ⟨e, ⟨he, hsrc⟩, rfl⟩
    exact ⟨e, he, by rw [← hsrc]⟩
  · rintro ⟨e, he, hkey⟩
    exact ⟨e, ⟨he, by rw [hkey]⟩, by rw [hkey]⟩

/-- The walk enumeration is sound and complete: membership in
`walks g b n a` is exactly being a walk from `a` to `b` with `n` edges. -/
theorem mem_walks (g : SnomedGraph) (b : Nat) :
    ∀ n a p, p ∈ walks g b n a ↔ (WalkFrom g b a p ∧ p.length = n + 1) := by
  intro n
  induction n with
  | zero =>
    intro a p
    constructor
    · intro hp
      by_cases hab : a = b
      · subst hab
        have hw : walks g a 0 a = [[a]] := by simp [walks]
        rw [hw, List.mem_singleton] at hp
        subst hp
        exact ⟨⟨rfl, rfl, List.chain'_singleton a⟩, rfl⟩
      · simp [walks, hab] at hp
    · rintro ⟨⟨hhead, hlast, _⟩, hlen⟩
      obtain ⟨t, rfl⟩ := List.head?_eq_some_iff.mp hhead
      have ht : t = [] := by
        have h2 : t.length = 0 := by
          have h3 := hlen
          simp only [List.length_cons] at h3
          omega
        exact List.length_eq_zero.mp h2
      subst ht
      have hab : a = b := by
        have : (some a : Option Nat) = some b := by
          rw [← hlast]; rfl
        exact Option.some.inj this
      subst hab
      simp [walks]
  | succ n ih =>
    intro a p
    constructor
    · intro hp
      simp only [walks, List.mem_flatMap, List.mem_map] at hp
      obtain ⟨c, hc, q, hq, rfl⟩ := hp
      obtain ⟨⟨hhead, hlast, hchain⟩, hlen⟩ := (ih c q).mp hq
      obtain ⟨t, rfl⟩ := List.head?_eq_some_iff.mp hhead
      refine ⟨⟨rfl, by simpa using hlast, ?_⟩, by simpa using hlen⟩
      rw [List.chain'_cons]
      exact ⟨(mem_succs g a c).mp hc, hchain⟩
    · rintro ⟨⟨hhead, hlast, hchain⟩, hlen⟩
      obtain ⟨t, rfl⟩ := List.head?_eq_some_iff.mp hhead
      cases t with
      | nil => simp at hlen
      | cons c t2 =>
        rw [List.chain'_cons] at hchain
        simp only [walks, List.mem_flatMap, List.mem_map]
        refine ⟨c, (mem_succs g a c).mpr hchain.1, c :: t2, ?_, rfl⟩
        refine (ih c (c :: t2)).mpr ⟨⟨rfl, by simpa using hlast, hchain.2⟩, by simpa using hlen⟩

/-- A list that is not duplicate-free contains some element twice. -/
theorem not_nodup_split {α : Type} :
    ∀ (p : List α), ¬ p.Nodup → ∃ x l₁ l₂ l₃, p = l₁ ++ x :: l₂ ++ x :: l₃ := by
  intro p
  induction p with
  | nil => intro h; exact absurd List.nodup_nil h
  | cons y ys ih =>
    intro h
    by_cases hy : y ∈ ys
    · obtain ⟨s, t, rfl⟩ := List.append_of_mem hy
      exact ⟨y, [], s, t, rfl⟩
    · have hys : ¬ ys.Nodup := fun hn => h (List.nodup_cons.mpr ⟨hy, hn⟩)
      obtain ⟨x, l₁, l₂, l₃, rfl⟩ := ih hys
      exact ⟨x, y :: l₁, l₂, l₃, rfl⟩

/-- Cutting the loop between two occurrences of the same node preserves
being a walk with the same endpoints. -/
theorem walk_cut (g : SnomedGraph) (b a x : Nat) (l₁ l₂ l₃ : List Nat)
    (h : WalkFrom g b a (l₁ ++ x :: l₂ ++ x :: l₃)) :
    WalkFrom g b a (l₁ ++ x :: l₃) := by
  obtain ⟨hhead, hlast, hchain⟩ := h
  have hassoc : l₁ ++ x :: l₂ ++ x :: l₃ = (l₁ ++ x :: l₂) ++ (x :: l₃) := by
    simp
  rw [hassoc] at hchain hlast
  rw [List.chain'_append] at hchain
  obtain ⟨hc1, hc2, hlink2⟩ := hchain
  rw [List.chain'_append] at hc1
  obtain ⟨hcl₁, _, hlink1⟩ := hc1
  refine ⟨?_, ?_, ?_⟩
  · rw [List.head?_append]
    rw [List.head?_append, List.head?_append] at hhead
    cases hl : l₁.head? with
    | some v => rw [hl] at hhead; simpa using hhead
    | none => rw [hl] at hhead; simpa using hhead
  · rw [List.getLast?_append]
    rw [List.getLast?_append] at hlast
    have hsome : ∃ v, (x :: l₃).getLast? = some v := by
      cases hgl : (x :: l₃).getLast? with
      | some v => exact ⟨v, rfl⟩
      | none => simp at hgl
    obtain ⟨v, hv⟩ := hsome
    rw [hv] at hlast ⊢
    simpa using hlast
  · rw [List.chain'_append]
    refine ⟨hcl₁, hc2, ?_⟩
    intro u hu v hv
    have hr := hlink1 u hu x (by simp)
    have hvx : x = v := by simpa using hv
    rw [← hvx]
    exact hr

/-- Any walk can be shortened to a duplicate-free walk with the same
endpoints. -/
theorem walk_shorten (g : SnomedGraph) (b : Nat) :
    ∀ (m : Nat) (a : Nat) (p : List Nat), p.length ≤ m → WalkFrom g b a p →
      ∃ q, WalkFrom g b a q ∧ q.Nodup := by
  intro m
  induction m with
  | zero =>
    intro a p hlen hw
    obtain ⟨t, rfl⟩ := List.head?_eq_some_iff.mp hw.1
    simp at hlen
  | succ m ih =>
    intro a p hlen hw
    by_cases hnd : p.Nodup
    · exact ⟨p, hw, hnd⟩
    · obtain ⟨x, l₁, l₂, l₃, rfl⟩ := not_nodup_split _ hnd
      refine ih a (l₁ ++ x :: l₃) ?_ (walk_cut g b a x l₁ l₂ l₃ hw)
      have h1 : (l₁ ++ x :: l₂ ++ x :: l₃).length
          = l₁.length + l₂.length + l₃.length + 2 := by simp; omega
      have h2 : (l₁ ++ x :: l₃).length = l₁.length + l₃.length + 1 := by simp; omega
      omega

/-- On a well-formed graph, every node of a multi-node chain of edges is a
node of the graph. -/
theorem chain'_mem_nodes (g : SnomedGraph) (hwf : EdgesWf g) :
    ∀ (p : List Nat), List.Chain' (fun u v => edgeMem g u v) p → 2 ≤ p.length →
      ∀ z ∈ p, z ∈ nodeIds g := by
  intro p
  induction p with
  | nil => simp
  | cons u t ih =>
    intro hchain hlen z hz
    cases t with
    | nil => simp at hlen
    | cons v t2 =>
      rw [List.chain'_cons] at hchain
      obtain ⟨e, he, hkey⟩ := hchain.1
      rcases List.mem_cons.mp hz with rfl | hz2
      · have hsrc := (hwf e he).1
        rw [hkey] at hsrc
        exact hsrc
      · cases t2 with
        | nil =>
          have hzv : z = v := by simpa using hz2
          subst hzv
          have htgt := (hwf e he).2
          rw [hkey] at htgt
          exact htgt
        | cons w t3 =>
          exact ih hchain.2 (by simp) z hz2

/-- On a well-formed graph, a duplicate-free walk has at most
`bound g + 1` nodes. -/
theorem walk_nodup_length (g : SnomedGraph) (hwf : EdgesWf g) (b a : Nat) (p : List Nat)
    (hw : WalkFrom g b a p) (hnd : p.Nodup) : p.length ≤ bound g + 1 := by
  rcases Nat.lt_or_ge p.length 2 with h2 | h2
  · have : 0 < bound g + 1 := Nat.succ_pos _
    omega
  · have hmem : ∀ z ∈ p, z ∈ nodeIds g := chain'_mem_nodes g hwf p hw.2.2 h2
    have hsub : p.toFinset ⊆ (nodeIds g).toFinset := by
      intro z hz
      rw [List.mem_toFinset] at hz ⊢
      exact hmem z hz
    have h3 : p.toFinset.card = p.length := List.toFinset_card_of_nodup hnd
    have h4 : p.toFinset.card ≤ (nodeIds g).toFinset.card := Finset.card_le_card hsub
    have h5 : (nodeIds g).toFinset.card ≤ (nodeIds g).length := (nodeIds g).toFinset_card_le
    have h6 : (nodeIds g).length = bound g := by simp [nodeIds, bound]
    omega

/-- `findSome?` finds its result at the first list entry where the function
fires. -/
theorem findSome?_first {α β : Type} (f : α → Option β) :
    ∀ (l : List α) (b0 : β), l.findSome? f = some b0 →
      ∃ l₁ x l₂, l = l₁ ++ x :: l₂ ∧ f x = some b0 ∧ ∀ y ∈ l₁, f y = none := by
  intro l
  induction l with
  | nil => intro b0 h; simp at h
  | cons a t ih =>
    intro b0 h
    rw [List.findSome?_cons] at h
    cases hfa : f a with
    | some v =>
      rw [hfa] at h
      refine ⟨[], a, t, rfl, ?_, by simp⟩
      rw [hfa]
      simpa using h
    | none =>
      rw [hfa] at h
      obtain ⟨l₁, x, l₂, rfl, hx, hnone⟩ := ih b0 h
      refine ⟨a :: l₁, x, l₂, rfl, hx, ?_⟩
      intro y hy
      rcases List.mem_cons.mp hy with rfl | hy2
      · exact hfa
      · exact hnone y hy2

/-- Decomposing `List.range`: the prefix before an occurrence of `x` is
`List.range x`. -/
theorem range_split (N : Nat) (l₁ l₂ : List Nat) (x : Nat)
    (h : List.range N = l₁ ++ x :: l₂) : l₁ = List.range x ∧ x < N := by
  have hlen : l₁.length + l₂.length + 1 = N := by
    have hl := congrArg List.length h
    simp at hl
    omega
  have hxlen : l₁.length < N := by omega
  have hx : x = l₁.length := by
    have hget := List.getElem?_range hxlen
    rw [h, List.getElem?_append_right (Nat.le_refl _)] at hget
    simp only [Nat.sub_self, List.getElem?_cons_zero] at hget
    exact Option.some.inj hget
  subst hx
  refine ⟨?_, hxlen⟩
  have htake : (List.range N).take l₁.length = l₁ := by
    rw [h]
    exact List.take_left l₁ (l₁.length :: l₂)
  rw [List.take_range] at htake
  have hmin : min l₁.length N = l₁.length := by omega
  rw [hmin] at htake
  exact htake.symm

/-- `shortestPathNodes` returns a walk of minimal length. -/
theorem shortestPathNodes_some_spec (g : SnomedGraph) (a b : Nat) (p : List Nat)
    (h : shortestPathNodes g a b = some p) :
    WalkFrom g b a p ∧ ∀ q, WalkFrom g b a q → p.length ≤ q.length := by
  obtain ⟨l₁, x, l₂, hsplit, hx, hnone⟩ := findSome?_first _ _ _ h
  obtain ⟨hl₁, hxlt⟩ := range_split (bound g + 1) l₁ l₂ x hsplit
  have hp : p ∈ walks g b x a := by
    apply List.mem_of_mem_head?
    rw [hx]
    rfl
  obtain ⟨hw, hlen⟩ := (mem_walks g b x a p).mp hp
  refine ⟨hw, ?_⟩
  intro q hq
  obtain ⟨t, rfl⟩ := List.head?_eq_some_iff.mp hq.1
  have hqlen : (a :: t).length = t.length + 1 := by simp
  have hqmem : (a :: t) ∈ walks g b t.length a :=
    (mem_walks g b t.length a (a :: t)).mpr ⟨hq, hqlen⟩
  by_cases hlt : t.length < x
  · exfalso
    have hmem : t.length ∈ l₁ := by
      rw [hl₁, List.mem_range]
      exact hlt
    have := hnone t.length hmem
    rw [List.head?_eq_none_iff] at this
    rw [this] at hqmem
    simp at hqmem
  · omega

/-- `shortestPathNodes` is `none` exactly when there is no walk at all
(given a well-formed graph). -/
theorem shortestPathNodes_none_iff (g : SnomedGraph) (hwf : EdgesWf g) (a b : Nat) :
    shortestPathNodes g a b = none ↔ ¬ Reaches g a b := by
  constructor
  · intro h hr
    obtain ⟨p, hw⟩ := hr
    obtain ⟨q, hqw, hqnd⟩ := walk_shorten g b p.length a p (Nat.le_refl _) hw
    have hqlen : q.length ≤ bound g + 1 := walk_nodup_length g hwf b a q hqw hqnd
    obtain ⟨t, rfl⟩ := List.head?_eq_some_iff.mp hqw.1
    have hqmem : (a :: t) ∈ walks g b t.length a :=
      (mem_walks g b t.length a (a :: t)).mpr ⟨hqw, by simp⟩
    have hrange : t.length ∈ List.range (bound g + 1) := by
      rw [List.mem_range]
      have : (a :: t).length = t.length + 1 := by simp
      omega
    have hz := List.findSome?_eq_none_iff.mp h t.length hrange
    rw [List.head?_eq_none_iff] at hz
    rw [hz] at hqmem
    simp at hqmem
  · intro hnr
    cases hcase : shortestPathNodes g a b with
    | none => rfl
    | some p =>
      exfalso
      exact hnr ⟨p, (shortestPathNodes_some_spec g a b p hcase).1⟩

/-- The amended behaviour of `find_path` for one ordered pair of concepts:
empty when no path exists in either direction; the relationship sequence of
a shortest `a → b` walk when one exists; the relationship sequence of a
shortest `b → a` walk as the fallback; and agreement of `find_path(a,b)`
and `find_path(b,a)` when a path exists in exactly one direction. -/
def FindPathSpec (g : SnomedGraph) (a b : Nat) : Prop :=
  ((¬ Reaches g a b ∧ ¬ Reaches g b a) → find_path g a b = []) ∧
  (Reaches g a b → ∃ p, WalkFrom g b a p ∧ find_path g a b = toRels g p ∧
    ∀ q, WalkFrom g b a q → p.length ≤ q.length) ∧
  (¬ Reaches g a b → Reaches g b a →
    ∃ p, WalkFrom g a b p ∧ find_path g a b = toRels g p ∧
      ∀ q, WalkFrom g a b q → p.length ≤ q.length) ∧
  (Reaches g a b → ¬ Reaches g b a → find_path g b a = find_path g a b)

/-- Reachability yields a successful shortest-path search. -/
theorem reaches_shortestPathNodes_isSome (g : SnomedGraph) (hwf : EdgesWf g) (a b : Nat)
    (h : Reaches g a b) : ∃ p, shortestPathNodes g a b = some p := by
  cases hcase : shortestPathNodes g a b with
  | none => exact absurd h ((shortestPathNodes_none_iff g hwf a b).mp hcase)
  | some p => exact ⟨p, rfl⟩

/-- C3 (amended): `find_path` tries `a → b` first and falls back to `b → a`,
returning the relationship sequence of a shortest path by edge count, or the
empty sequence when no path exists in either direction; and when a path
exists in exactly **one** direction, `find_path(a,b)` and `find_path(b,a)`
coincide (hence have equal length).  (When paths exist in both directions
the two calls prefer different directions and their lengths can differ: see
the counterexample.) -/
theorem c3_find_path (g : SnomedGraph) (hwf : EdgesWf g) (a b : Nat) :
    FindPathSpec g a b := by
  refine ⟨?_, ?_, ?_, ?_⟩
  · rintro ⟨hab, hba⟩
    have h1 := (shortestPathNodes_none_iff g hwf a b).mpr hab
    have h2 := (shortestPathNodes_none_iff g hwf b a).mpr hba
    simp only [find_path, h1, h2]
  · intro hab
    obtain ⟨p, hp⟩ := reaches_shortestPathNodes_isSome g hwf a b hab
    obtain ⟨hw, hmin⟩ := shortestPathNodes_some_spec g a b p hp
    exact ⟨p, hw, by simp only [find_path, hp], hmin⟩
  · intro hnab hba
    have h1 := (shortestPathNodes_none_iff g hwf a b).mpr hnab
    obtain ⟨p, hp⟩ := reaches_shortestPathNodes_isSome g hwf b a hba
    obtain ⟨hw, hmin⟩ := shortestPathNodes_some_spec g b a p hp
    exact ⟨p, hw, by simp only [find_path, h1, hp], hmin⟩
  · intro hab hnba
    have h1 := (shortestPathNodes_none_iff g hwf b a).mpr hnba
    obtain ⟨p, hp⟩ := reaches_shortestPathNodes_isSome g hwf a b hab
    simp only [find_path, h1, hp]

/-- Witness for C3 (amended) on the concrete graph `rootG`. -/
theorem c3_witness :
    EdgesWf rootG ∧ FindPathSpec rootG 1 SnomedGraph.root_concept_id :=
  ⟨by decide, c3_find_path rootG (by decide) 1 SnomedGraph.root_concept_id⟩

/-- A three-node directed cycle `1 → 2 → 3 → 1`. -/
def c3G : SnomedGraph :=
  { nodes := [⟨1, "A (finding)", []⟩, ⟨2, "B (finding)", []⟩, ⟨3, "C (finding)", []⟩],
    edges := [((1, 2), isaAttrs), ((2, 3), isaAttrs), ((3, 1), isaAttrs)] }

/-- C3 counterexample: on the three-cycle, paths exist between 1 and 2 in
both directions, both `find_path` calls return nonempty sequences, yet
`find_path(1,2)` has 1 edge while `find_path(2,1)` has 2 — so "whenever a
path exists, `find_path(a,b)` has the same length as `find_path(b,a)`" is
false as stated. -/
theorem c3_counterexample :
    find_path c3G 1 2 ≠ [] ∧ find_path c3G 2 1 ≠ [] ∧
    (find_path c3G 1 2).length = 1 ∧ (find_path c3G 2 1).length = 2 := by
  refine ⟨?_, ?_, ?_, ?_⟩ <;> decide

/-! ### C2: `path_to_root` -/

/-- The DFS enumeration of simple paths from `a` to `b` in adjacency order:
the behaviour of `nx.all_simple_paths(G, a, b)`.  `visited` holds the nodes
strictly before `a` on the current path; a successor already on the path is
not extended. -/
def simplePathsAux (g : SnomedGraph) (b : Nat) : Nat → List Nat → Nat → List (List Nat)
  | 0, _, a => if a = b then [[a]] else []
  | fuel + 1, visited, a =>
    if a = b then [[a]]
    else
      (succs g a).flatMap fun c =>
        if c ∈ visited ∨ c = a then []
        else (simplePathsAux g b fuel (a :: visited) c).map (fun p => a :: p)

/-- All simple paths from `a` to `b`; the fuel `bound g` covers every simple
path, whose node count is at most the number of nodes. -/
def simplePaths (g : SnomedGraph) (a b : Nat) : List (List Nat) :=
  simplePathsAux g b (bound g) [] a

/-- Build the relationship list along a node path, discarding the candidate
(`path = None; break` in the source) as soon as a step is not is-a typed. -/
def toIsaPath (g : SnomedGraph) : List Nat → Option (List EdgeRec)
  | [] => some []
  | [_] => some []
  | u :: v :: rest =>
    if (edgeAttr g u v).type_id = SnomedGraph.is_a_relationship_typeId then
      (toIsaPath g (v :: rest)).map (fun p => ((u, v), edgeAttr g u v) :: p)
    else none

/-- The loop body of `path_to_root`: a candidate whose edges were not all
is-a (`path = None`) or that is empty (`if path:` is falsy) leaves the
incumbent; otherwise the incumbent is replaced only when strictly longer
(`if len(shortest_path) > len(path)`), so the first shortest survives. -/
def prStep (g : SnomedGraph) : Option (List EdgeRec) → List Nat → Option (List EdgeRec) :=
  fun shortest nodes =>
    match toIsaPath g nodes with
    | none => shortest
    | some path =>
      if path = [] then shortest
      else
        match shortest with
        | some sp => if sp.length > path.length then some path else some sp
        | none => some path

/-- `path_to_root(sctid)`: fold the loop body over all simple paths to the
root in discovery order; `none` when no all-is-a candidate survives. -/
def path_to_root (g : SnomedGraph) (sctid : Nat) : Option (List EdgeRec) :=
  (simplePaths g sctid SnomedGraph.root_concept_id).foldl (prStep g) none

/-- `nodes` is a simple (duplicate-free) directed path from `a` to `b` with
at least one edge, every edge of which is is-a typed. -/
def IsIsaSimplePath (g : SnomedGraph) (a b : Nat) (nodes : List Nat) : Prop :=
  WalkFrom g b a nodes ∧ nodes.Nodup ∧ 2 ≤ nodes.length ∧
    ∀ q ∈ nodes.zip nodes.tail,
      (edgeAttr g q.1 q.2).type_id = SnomedGraph.is_a_relationship_typeId

/-- Soundness of the DFS enumeration: every enumerated list is a
duplicate-free walk from `a` to `b` avoiding `visited`. -/
theorem simplePathsAux_sound (g : SnomedGraph) (b : Nat) :
    ∀ (fuel : Nat) (visited : List Nat) (a : Nat), a ∉ visited →
      ∀ p ∈ simplePathsAux g b fuel visited a,
        WalkFrom g b a p ∧ p.Nodup ∧ ∀ x ∈ p, x ∉ visited := by
  intro fuel
  induction fuel with
  | zero =>
    intro visited a ha p hp
    by_cases hab : a = b
    · subst hab
      have hw : simplePathsAux g a 0 visited a = [[a]] := by simp [simplePathsAux]
      rw [hw, List.mem_singleton] at hp
      subst hp
      refine ⟨⟨rfl, rfl, List.chain'_singleton a⟩, List.nodup_singleton a, ?_⟩
      intro x hx
      rw [List.mem_singleton] at hx
      subst hx
      exact ha
    · simp [simplePathsAux, hab] at hp
  | succ fuel ih =>
    intro visited a ha p hp
    by_cases hab : a = b
    · subst hab
      have hw : simplePathsAux g a (fuel + 1) visited a = [[a]] := by simp [simplePathsAux]
      rw [hw, List.mem_singleton] at hp
      subst hp
      refine ⟨⟨rfl, rfl, List.chain'_singleton a⟩, List.nodup_singleton a, ?_⟩
      intro x hx
      rw [List.mem_singleton] at hx
      subst hx
      exact ha
    · rw [show simplePathsAux g b (fuel + 1) visited a
          = (succs g a).flatMap (fun c =>
              if c ∈ visited ∨ c = a then []
              else (simplePathsAux g b fuel (a :: visited) c).map (fun p => a :: p))
          from by simp [simplePathsAux, hab]] at hp
      rw [List.mem_flatMap] at hp
      obtain ⟨c, hc, hpc⟩ := hp
      by_cases hguard : c ∈ visited ∨ c = a
      · rw [if_pos hguard] at hpc
        simp at hpc
      · rw [if_neg hguard] at hpc
        rw [List.mem_map] at hpc
        obtain ⟨q, hq, rfl⟩ := hpc
        push_neg at hguard
        have hcnv : c ∉ a :: visited := by
          rw [List.mem_cons]
          rintro (rfl | hcv)
          · exact hguard.2 rfl
          · exact hguard.1 hcv
        obtain ⟨hwq, hndq, havq⟩ := ih (a :: visited) c hcnv q hq
        obtain ⟨t, rfl⟩ := List.head?_eq_some_iff.mp hwq.1
        refine ⟨⟨rfl, by simpa using hwq.2.1, ?_⟩, ?_, ?_⟩
        · rw [List.chain'_cons]
          exact ⟨(mem_succs g a c).mp hc, hwq.2.2⟩
        · rw [List.nodup_cons]
          refine ⟨?_, hndq⟩
          intro hmem
          exact (havq a hmem) (List.mem_cons_self a visited)
        · intro x hx
          rcases List.mem_cons.mp hx with rfl | hx2
          · exact ha
          · intro hxv
            exact (havq x hx2) (List.mem_cons_of_mem a hxv)

/-- Completeness of the DFS enumeration: every duplicate-free walk avoiding
`visited`, of length within the fuel, is enumerated. -/
theorem simplePathsAux_complete (g : SnomedGraph) (b : Nat) :
    ∀ (fuel : Nat) (visited : List Nat) (a : Nat) (p : List Nat),
      WalkFrom g b a p → p.Nodup → (∀ x ∈ p, x ∉ visited) → p.length ≤ fuel + 1 →
      p ∈ simplePathsAux g b fuel visited a := by
  intro fuel
  induction fuel with
  | zero =>
    intro visited a p hw hnd hav hlen
    obtain ⟨t, rfl⟩ := List.head?_eq_some_iff.mp hw.1
    have ht : t = [] := by
      have : t.length = 0 := by
        have := hlen
        simp only [List.length_cons] at this
        omega
      exact List.length_eq_zero.mp this
    subst ht
    have hab : a = b := by
      have := hw.2.1
      simpa using this
    subst hab
    simp [simplePathsAux]
  | succ fuel ih =>
    intro visited a p hw hnd hav hlen
    obtain ⟨t, rfl⟩ := List.head?_eq_some_iff.mp hw.1
    by_cases hab : a = b
    · subst hab
      have ht : t = [] := by
        cases ht2 : t with
        | nil => rfl
        | cons y t3 =>
          exfalso
          have hlast := hw.2.1
          rw [ht2] at hlast
          have hmem : a ∈ y :: t3 := by
            have := List.mem_of_getLast?_eq_some (by simpa using hlast)
            exact this
          rw [List.nodup_cons, ht2] at hnd
          exact hnd.1 hmem
      subst ht
      simp [simplePathsAux]
    · have hw2 : simplePathsAux g b (fuel + 1) visited a
          = (succs g a).flatMap (fun c =>
              if c ∈ visited ∨ c = a then []
              else (simplePathsAux g b fuel (a :: visited) c).map (fun p => a :: p)) := by
        simp [simplePathsAux, hab]
      rw [hw2, List.mem_flatMap]
      cases ht2 : t with
      | nil =>
        exfalso
        have hlast := hw.2.1
        rw [ht2] at hlast
        exact hab (by simpa using hlast)
      | cons c t3 =>
        subst ht2
        obtain ⟨hhead, hlast, hchain⟩ := hw
        rw [List.chain'_cons] at hchain
        refine ⟨c, (mem_succs g a c).mpr hchain.1, ?_⟩
        have hguard : ¬ (c ∈ visited ∨ c = a) := by
          rintro (hcv | rfl)
          · exact hav c (by simp) hcv
          · rw [List.nodup_cons] at hnd
            exact hnd.1 (by simp)
        rw [if_neg hguard, List.mem_map]
        refine ⟨c :: t3, ?_, rfl⟩
        apply ih (a :: visited) c (c :: t3)
        · exact ⟨rfl, by simpa using hlast, hchain.2⟩
        · exact (List.nodup_cons.mp hnd).2
        · intro x hx
          rw [List.mem_cons]
          rintro (rfl | hxv)
          · exact (List.nodup_cons.mp hnd).1 hx
          · exact hav x (List.mem_cons_of_mem a hx) hxv
        · have := hlen
          simp only [List.length_cons] at this ⊢
          omega

/-- The relationship list along a path `u :: rest` has one entry per edge. -/
theorem toRels_cons_length (g : SnomedGraph) (u : Nat) (rest : List Nat) :
    (toRels g (u :: rest)).length = rest.length := by
  simp [toRels]

/-- `toIsaPath` succeeds exactly on all-is-a paths, and then returns the
relationship sequence along the path. -/
theorem toIsaPath_eq_some (g : SnomedGraph) :
    ∀ (nodes : List Nat) (p : List EdgeRec),
      toIsaPath g nodes = some p ↔
        (p = toRels g nodes ∧ ∀ q ∈ nodes.zip nodes.tail,
          (edgeAttr g q.1 q.2).type_id = SnomedGraph.is_a_relationship_typeId) := by
  intro nodes
  induction nodes with
  | nil => intro p; simp [toIsaPath, toRels, eq_comm]
  | cons u rest ih =>
    intro p
    cases rest with
    | nil => simp [toIsaPath, toRels, eq_comm]
    | cons v rest2 =>
      by_cases hisa : (edgeAttr g u v).type_id = SnomedGraph.is_a_relationship_typeId
      · rw [show toIsaPath g (u :: v :: rest2)
            = (toIsaPath g (v :: rest2)).map (fun p => ((u, v), edgeAttr g u v) :: p)
            from by simp [toIsaPath, hisa]]
        constructor
        · intro h
          obtain ⟨p', hp', rfl⟩ := Option.map_eq_some'.mp h
          obtain ⟨hp'2, hisa2⟩ := (ih p').mp hp'
          subst hp'2
          refine ⟨by simp [toRels], ?_⟩
          intro q hq
          rw [show (u :: v :: rest2).zip (u :: v :: rest2).tail
              = (u, v) :: (v :: rest2).zip rest2 from rfl] at hq
          rcases List.mem_cons.mp hq with rfl | hq2
          · exact hisa
          · exact hisa2 q (by simpa using hq2)
        · rintro ⟨rfl, hisa2⟩
          rw [Option.map_eq_some']
          refine ⟨toRels g (v :: rest2), ?_, by simp [toRels]⟩
          refine (ih _).mpr ⟨rfl, ?_⟩
          intro q hq
          exact hisa2 q (by
            rw [show (u :: v :: rest2).zip (u :: v :: rest2).tail
                = (u, v) :: (v :: rest2).zip rest2 from rfl]
            exact List.mem_cons_of_mem _ (by simpa using hq))
      · rw [show toIsaPath g (u :: v :: rest2) = none from by simp [toIsaPath, hisa]]
        constructor
        · intro h; simp at h
        · rintro ⟨_, hisa2⟩
          exfalso
          exact hisa (hisa2 (u, v) (by
            rw [show (u :: v :: rest2).zip (u :: v :: rest2).tail
                = (u, v) :: (v :: rest2).zip rest2 from rfl]
            exact List.mem_cons_self _ _))

/-- The candidate extracted from one simple path: its relationship sequence,
kept only when it is all-is-a and nonempty. -/
def pathCand (g : SnomedGraph) (nodes : List Nat) : Option (List Nat × List EdgeRec) :=
  match toIsaPath g nodes with
  | none => none
  | some p => if p = [] then none else some (nodes, p)

/-- The incumbent update on surviving candidates: replace only when
strictly shorter. -/
def minStep : Option (List EdgeRec) → List Nat × List EdgeRec → Option (List EdgeRec) :=
  fun shortest c =>
    match shortest with
    | some sp => if sp.length > c.2.length then some c.2 else some sp
    | none => some c.2

/-- The fold of `path_to_root` only looks at surviving candidates. -/
theorem foldl_prStep_eq (g : SnomedGraph) :
    ∀ (l : List (List Nat)) (acc : Option (List EdgeRec)),
      l.foldl (prStep g) acc = (l.filterMap (pathCand g)).foldl minStep acc := by
  intro l
  induction l with
  | nil => intro acc; rfl
  | cons nodes rest ih =>
    intro acc
    rw [List.foldl_cons]
    cases htp : toIsaPath g nodes with
    | none =>
      rw [List.filterMap_cons_none (by simp [pathCand, htp])]
      rw [show prStep g acc nodes = acc from by simp [prStep, htp]]
      exact ih acc
    | some p =>
      by_cases hp : p = []
      · rw [List.filterMap_cons_none (by simp [pathCand, htp, hp])]
        rw [show prStep g acc nodes = acc from by simp [prStep, htp, hp]]
        exact ih acc
      · rw [List.filterMap_cons_some (f := pathCand g)
          (show pathCand g nodes = some (nodes, p) from by simp [pathCand, htp, hp])]
        rw [show prStep g acc nodes = minStep acc (nodes, p) from by
          simp [prStep, htp, hp, minStep]]
        rw [List.foldl_cons]
        exact ih _

/-- The incumbent fold keeps the first shortest candidate: its result is an
entry of the candidate sequence that is strictly shorter than everything
before it and no longer than anything in the sequence. -/
theorem foldl_minStep_spec :
    ∀ (rest : List (List Nat × List EdgeRec)) (s : List EdgeRec),
      ∃ r, List.foldl minStep (some s) rest = some r ∧
        ∃ m1 m2, s :: rest.map Prod.snd = m1 ++ r :: m2 ∧
          (∀ y ∈ m1, r.length < y.length) ∧
          (∀ y ∈ s :: rest.map Prod.snd, r.length ≤ y.length) := by
  intro rest
  induction rest with
  | nil =>
    intro s
    exact ⟨s, rfl, [], [], rfl, by simp, by simp⟩
  | cons y rest ih =>
    intro s
    by_cases hlt : y.2.length < s.length
    · have hstep : minStep (some s) y = some y.2 := by
        simp [minStep, hlt]
      obtain ⟨r, hr, m1, m2, hdec, hm1, hall⟩ := ih y.2
      have hrle : r.length ≤ y.2.length := hall y.2 (List.mem_cons_self _ _)
      refine ⟨r, by rw [List.foldl_cons, hstep]; exact hr, s :: m1, m2, ?_, ?_, ?_⟩
      · rw [List.map_cons, hdec]
        rfl
      · intro z hz
        rcases List.mem_cons.mp hz with rfl | hz2
        · omega
        · exact hm1 z hz2
      · intro z hz
        rcases List.mem_cons.mp hz with rfl | hz2
        · omega
        · exact hall z (by simpa using hz2)
    · have hstep : minStep (some s) y = some s := by
        simp [minStep, hlt]
      obtain ⟨r, hr, m1, m2, hdec, hm1, hall⟩ := ih s
      have hsle : s.length ≤ y.2.length := by omega
      have hrles : r.length ≤ s.length := hall s (List.mem_cons_self _ _)
      refine ⟨r, by rw [List.foldl_cons, hstep]; exact hr, ?_⟩
      cases m1 with
      | nil =>
        have hrs : r = s ∧ m2 = rest.map Prod.snd := by
          rw [List.nil_append] at hdec
          exact ⟨(List.cons.injEq _ _ _ _ ▸ hdec).1.symm, by
            have := hdec
            simp at this
            exact this.2.symm⟩
        obtain ⟨rfl, rfl⟩ := hrs
        refine ⟨[], y.2 :: rest.map Prod.snd, by simp, by simp, ?_⟩
        intro z hz
        rcases List.mem_cons.mp hz with rfl | hz2
        · exact Nat.le_refl _
        · rcases List.mem_cons.mp hz2 with rfl | hz3
          · exact hsle
          · exact hall z (List.mem_cons_of_mem _ hz3)
      | cons w m1' =>
        have hws : w = s ∧ rest.map Prod.snd = m1' ++ r :: m2 := by
          have := hdec
          rw [List.cons_append] at this
          exact ⟨(List.cons.injEq _ _ _ _ ▸ this).1.symm, by
            simp at this
            exact this.2⟩
        obtain ⟨rfl, hrest⟩ := hws
        have hrltw : r.length < w.length := hm1 w (List.mem_cons_self _ _)
        refine ⟨w :: y.2 :: m1', m2, ?_, ?_, ?_⟩
        · rw [List.map_cons, hrest]
          rfl
        · intro z hz
          rcases List.mem_cons.mp hz with rfl | hz2
          · exact hrltw
          · rcases List.mem_cons.mp hz2 with rfl | hz3
            · omega
            · exact hm1 z (List.mem_cons_of_mem _ hz3)
        · intro z hz
          rcases List.mem_cons.mp hz with rfl | hz2
          · exact hrles
          · rcases List.mem_cons.mp hz2 with rfl | hz3
            · omega
            · exact hall z (List.mem_cons_of_mem _ hz3)

/-- Membership in the simple-path enumeration is exactly being a
duplicate-free walk (on a well-formed graph). -/
theorem mem_simplePaths (g : SnomedGraph) (hwf : EdgesWf g) (a b : Nat) (p : List Nat) :
    p ∈ simplePaths g a b ↔ (WalkFrom g b a p ∧ p.Nodup) := by
  constructor
  · intro hp
    obtain ⟨hw, hnd, _⟩ := simplePathsAux_sound g b (bound g) [] a (by simp) p hp
    exact ⟨hw, hnd⟩
  · rintro ⟨hw, hnd⟩
    exact simplePathsAux_complete g b (bound g) [] a p hw hnd (by simp)
      (walk_nodup_length g hwf b a p hw hnd)

/-- The relationship sequence of a nonempty path has one fewer entry than
the path has nodes. -/
theorem toRels_length_of_head (g : SnomedGraph) (nodes : List Nat) (a : Nat)
    (h : nodes.head? = some a) : (toRels g nodes).length + 1 = nodes.length := by
  obtain ⟨t, rfl⟩ := List.head?_eq_some_iff.mp h
  rw [toRels_cons_length]
  simp

/-- An is-a simple path always survives as a candidate. -/
theorem pathCand_of_isa (g : SnomedGraph) (a b : Nat) (nodes : List Nat)
    (h : IsIsaSimplePath g a b nodes) :
    pathCand g nodes = some (nodes, toRels g nodes) := by
  obtain ⟨hw, _, hlen2, hisa⟩ := h
  have htp : toIsaPath g nodes = some (toRels g nodes) :=
    (toIsaPath_eq_some g nodes _).mpr ⟨rfl, hisa⟩
  have hne : ¬ toRels g nodes = [] := by
    intro hnil
    have := toRels_length_of_head g nodes a hw.1
    rw [hnil] at this
    simp at this
    omega
  simp only [pathCand, htp, if_neg hne]

/-- Candidate membership is exactly being an is-a simple path (paired with
its relationship sequence). -/
theorem mem_cands (g : SnomedGraph) (hwf : EdgesWf g) (sctid : Nat)
    (nodes : List Nat) (p : List EdgeRec) :
    (nodes, p) ∈ (simplePaths g sctid SnomedGraph.root_concept_id).filterMap (pathCand g) ↔
      (IsIsaSimplePath g sctid SnomedGraph.root_concept_id nodes ∧ p = toRels g nodes) := by
  rw [List.mem_filterMap]
  constructor
  · rintro ⟨nodes', hmem, hcand⟩
    have hparse : toIsaPath g nodes' = some p ∧ nodes' = nodes ∧ ¬ p = [] := by
      cases htp : toIsaPath g nodes' with
      | none =>
        simp only [pathCand, htp] at hcand
        exact Option.noConfusion hcand
      | some q =>
        simp only [pathCand, htp] at hcand
        by_cases hq : q = []
        · rw [if_pos hq] at hcand; simp at hcand
        · rw [if_neg hq] at hcand
          have h2 := Option.some.inj hcand
          have hn : nodes' = nodes := congrArg Prod.fst h2
          have hqp : q = p := congrArg Prod.snd h2
          subst hn
          subst hqp
          exact ⟨rfl, rfl, hq⟩
    obtain ⟨htp, rfl, hpne⟩ := hparse
    obtain ⟨hw, hnd⟩ := (mem_simplePaths g hwf sctid _ nodes').mp hmem
    obtain ⟨hrels, hisa⟩ := (toIsaPath_eq_some g nodes' p).mp htp
    subst hrels
    refine ⟨⟨hw, hnd, ?_, hisa⟩, rfl⟩
    obtain ⟨t, rfl⟩ := List.head?_eq_some_iff.mp hw.1
    cases t with
    | nil => exact absurd rfl hpne
    | cons v t2 => simp
  · rintro ⟨hisa, rfl⟩
    exact ⟨nodes, (mem_simplePaths g hwf _ _ nodes).mpr ⟨hisa.1, hisa.2.1⟩,
      pathCand_of_isa g sctid SnomedGraph.root_concept_id nodes hisa⟩

/-- Decomposing a `filterMap` around one output element. -/
theorem filterMap_split {α β : Type} (f : α → Option β) :
    ∀ (l : List α) (m1 : List β) (c : β) (m2 : List β),
      l.filterMap f = m1 ++ c :: m2 →
      ∃ l1 x l2, l = l1 ++ x :: l2 ∧ f x = some c ∧ l1.filterMap f = m1 := by
  intro l
  induction l with
  | nil =>
    intro m1 c m2 h
    simp only [List.filterMap_nil] at h
    exact absurd h.symm (List.append_ne_nil_of_right_ne_nil _ (List.cons_ne_nil _ _))
  | cons a t ih =>
    intro m1 c m2 h
    cases hfa : f a with
    | none =>
      rw [List.filterMap_cons_none hfa] at h
      obtain ⟨l1, x, l2, rfl, hx, hm⟩ := ih m1 c m2 h
      exact ⟨a :: l1, x, l2, rfl, hx, by rw [List.filterMap_cons_none hfa, hm]⟩
    | some v =>
      rw [List.filterMap_cons_some hfa] at h
      cases m1 with
      | nil =>
        simp only [List.nil_append] at h
        have hvc : v = c := (List.cons.injEq _ _ _ _ ▸ h).1
        exact ⟨[], a, t, rfl, by rw [hfa, hvc], rfl⟩
      | cons w m1' =>
        rw [List.cons_append] at h
        have hwv : v = w := (List.cons.injEq _ _ _ _ ▸ h).1
        have ht : t.filterMap f = m1' ++ c :: m2 := (List.cons.injEq _ _ _ _ ▸ h).2
        obtain ⟨l1, x, l2, rfl, hx, hm⟩ := ih m1' c m2 ht
        exact ⟨a :: l1, x, l2, rfl, hx, by rw [List.filterMap_cons_some hfa, hm, hwv]⟩

/-- Decomposing a `map` around one output element. -/
theorem map_split {α β : Type} (f : α → β) :
    ∀ (l : List α) (m1 : List β) (c : β) (m2 : List β),
      l.map f = m1 ++ c :: m2 →
      ∃ l1 x l2, l = l1 ++ x :: l2 ∧ f x = c ∧ l1.map f = m1 := by
  intro l
  induction l with
  | nil =>
    intro m1 c m2 h
    simp only [List.map_nil] at h
    exact absurd h.symm (List.append_ne_nil_of_right_ne_nil _ (List.cons_ne_nil _ _))
  | cons a t ih =>
    intro m1 c m2 h
    rw [List.map_cons] at h
    cases m1 with
    | nil =>
      simp only [List.nil_append] at h
      have hfc : f a = c := (List.cons.injEq _ _ _ _ ▸ h).1
      exact ⟨[], a, t, rfl, hfc, rfl⟩
    | cons w m1' =>
      rw [List.cons_append] at h
      have hfw : f a = w := (List.cons.injEq _ _ _ _ ▸ h).1
      have ht : t.map f = m1' ++ c :: m2 := (List.cons.injEq _ _ _ _ ▸ h).2
      obtain ⟨l1, x, l2, rfl, hx, hm⟩ := ih m1' c m2 ht
      exact ⟨a :: l1, x, l2, rfl, hx, by rw [List.map_cons, hm, hfw]⟩

/-- The specified behaviour of `path_to_root` for one concept: `none`
exactly when no all-is-a simple path with at least one edge from the concept
to the root exists (an undefined result, distinct from a zero-length path,
which is never returned); otherwise the relationship sequence of an is-a
simple path of minimal length, the first such path in discovery order
surviving any tie. -/
def PathToRootSpec (g : SnomedGraph) (sctid : Nat) : Prop :=
  (path_to_root g sctid = none ↔
    ∀ nodes, ¬ IsIsaSimplePath g sctid SnomedGraph.root_concept_id nodes) ∧
  ∀ p, path_to_root g sctid = some p →
    p ≠ [] ∧
    ∃ nodes, IsIsaSimplePath g sctid SnomedGraph.root_concept_id nodes ∧
      p = toRels g nodes ∧
      (∀ nodes2, IsIsaSimplePath g sctid SnomedGraph.root_concept_id nodes2 →
        nodes.length ≤ nodes2.length) ∧
      ∃ l1 l2, simplePaths g sctid SnomedGraph.root_concept_id = l1 ++ nodes :: l2 ∧
        ∀ nodes3 ∈ l1, IsIsaSimplePath g sctid SnomedGraph.root_concept_id nodes3 →
          nodes.length < nodes3.length

/-- C2: `path_to_root(sctid)` returns, among all simple directed all-is-a
paths from the concept to the root, one with fewest edges, the
first-discovered surviving a tie; candidates with a non-is-a edge are
discarded; and when no all-is-a path to the root exists the result is
`none`, distinct from a zero-length path. -/
theorem c2_path_to_root (g : SnomedGraph) (hwf : EdgesWf g) (sctid : Nat) :
    PathToRootSpec g sctid := by
  have hpr : path_to_root g sctid
      = ((simplePaths g sctid SnomedGraph.root_concept_id).filterMap (pathCand g)).foldl
          minStep none := foldl_prStep_eq g _ none
  constructor
  · constructor
    · intro hnone nodes hisa
      have hmem := (mem_cands g hwf sctid nodes (toRels g nodes)).mpr ⟨hisa, rfl⟩
      rw [hpr] at hnone
      cases hcl : (simplePaths g sctid SnomedGraph.root_concept_id).filterMap (pathCand g) with
      | nil =>
        rw [hcl] at hmem
        simp at hmem
      | cons c rest =>
        rw [hcl, List.foldl_cons, show minStep none c = some c.2 from rfl] at hnone
        obtain ⟨r, hr, _⟩ := foldl_minStep_spec rest c.2
        rw [hr] at hnone
        exact Option.noConfusion hnone
    · intro hall
      rw [hpr]
      have hcl : (simplePaths g sctid SnomedGraph.root_concept_id).filterMap (pathCand g)
          = [] := by
        rw [List.eq_nil_iff_forall_not_mem]
        rintro ⟨nodes, p⟩ hmem
        exact hall nodes ((mem_cands g hwf sctid nodes p).mp hmem).1
      rw [hcl]
      rfl
  · intro p hp
    rw [hpr] at hp
    cases hcl : (simplePaths g sctid SnomedGraph.root_concept_id).filterMap (pathCand g) with
    | nil =>
      rw [hcl] at hp
      exact Option.noConfusion hp
    | cons c rest =>
      rw [hcl, List.foldl_cons, show minStep none c = some c.2 from rfl] at hp
      obtain ⟨r, hr, m1, m2, hdec, hm1, hall⟩ := foldl_minStep_spec rest c.2
      rw [hr] at hp
      have hrp : r = p := Option.some.inj hp
      subst hrp
      have hmapdec : (c :: rest).map Prod.snd = m1 ++ r :: m2 := by
        rw [List.map_cons]
        exact hdec
      obtain ⟨cl1, cp, cl2, hcldec, hcp2, hcl1map⟩ :=
        map_split Prod.snd (c :: rest) m1 r m2 hmapdec
      have hfm : (simplePaths g sctid SnomedGraph.root_concept_id).filterMap (pathCand g)
          = cl1 ++ cp :: cl2 := by rw [hcl, hcldec]
      obtain ⟨l1, x, l2, hldec, hx, hl1fm⟩ :=
        filterMap_split (pathCand g) _ cl1 cp cl2 hfm
      have hcpx : cp = (x, r) := by
        cases htp : toIsaPath g x with
        | none =>
          simp only [pathCand, htp] at hx
          exact Option.noConfusion hx
        | some q =>
          simp only [pathCand, htp] at hx
          by_cases hq : q = []
          · rw [if_pos hq] at hx
            exact Option.noConfusion hx
          · rw [if_neg hq] at hx
            have h2 := Option.some.inj hx
            rw [← h2, ← hcp2, ← h2]
      have hxr : (x, r) ∈ (simplePaths g sctid SnomedGraph.root_concept_id).filterMap
          (pathCand g) := by
        rw [hfm, ← hcpx]
        simp
      obtain ⟨hisa, hrtr⟩ := (mem_cands g hwf sctid x r).mp hxr
      have hxlen : r.length + 1 = x.length := by
        rw [hrtr]
        exact toRels_length_of_head g x sctid hisa.1.1
      refine ⟨?_, x, hisa, hrtr, ?_, l1, l2, hldec, ?_⟩
      · intro hnil
        rw [hnil] at hxlen
        have := hisa.2.2.1
        simp at hxlen
        omega
      · intro nodes2 hisa2
        have hc2 : (nodes2, toRels g nodes2)
            ∈ (simplePaths g sctid SnomedGraph.root_concept_id).filterMap (pathCand g) :=
          (mem_cands g hwf sctid nodes2 (toRels g nodes2)).mpr ⟨hisa2, rfl⟩
        rw [hcl] at hc2
        have hsnd : toRels g nodes2 ∈ (c :: rest).map Prod.snd :=
          List.mem_map_of_mem Prod.snd hc2
        rw [List.map_cons] at hsnd
        have hle := hall (toRels g nodes2) hsnd
        have h2len : (toRels g nodes2).length + 1 = nodes2.length :=
          toRels_length_of_head g nodes2 sctid hisa2.1.1
        omega
      · intro nodes3 h3mem hisa3
        have hc3 : (nodes3, toRels g nodes3) ∈ l1.filterMap (pathCand g) :=
          List.mem_filterMap.mpr ⟨nodes3, h3mem,
            pathCand_of_isa g sctid SnomedGraph.root_concept_id nodes3 hisa3⟩
        rw [hl1fm] at hc3
        have hsnd : toRels g nodes3 ∈ cl1.map Prod.snd :=
          List.mem_map_of_mem Prod.snd hc3
        rw [hcl1map] at hsnd
        have hlt := hm1 (toRels g nodes3) hsnd
        have h3len : (toRels g nodes3).length + 1 = nodes3.length :=
          toRels_length_of_head g nodes3 sctid hisa3.1.1
        omega

/-- Witness for C2 on the concrete graph `rootG`. -/
theorem c2_witness : EdgesWf rootG ∧ PathToRootSpec rootG 1 :=
  ⟨by decide, c2_path_to_root rootG (by decide) 1⟩

/-- Witness for C8: the depth 0 is rejected on `rootG`. -/
theorem c8_witness :
    (0 : Int) ≤ 0 ∧
    get_ancestors rootG 1 (some 0) = Except.error "steps_removed must be > 0 or None" ∧
    get_descendants rootG 1 (some 0) = Except.error "steps_removed must be > 0 or None" ∧
    get_neighbourhood rootG 1 0 = Except.error "steps_removed must be > 0" :=
  ⟨le_refl 0, c8_nonpositive_depth_rejected rootG 1 0 (le_refl 0)⟩
